import Mathlib

/-!
A verification development for the `py-multiaddr` repository.

The Python sources under `multiaddr/` are shallowly embedded:
  * byte strings become `List Nat` (each element < 256 by construction),
  * Python `str` values become Lean `String` / `List Char`,
  * fallible operations return `Option` or `Except`,
  * the stateful generators (`string_iter`, `bytes_iter`) become
    fuel-indexed recursive functions over token / byte lists.

Parts of the repository that are referenced but whose source files are
absent (`multiaddr/protocols.py`, `multiaddr/codecs/__init__.py`, the
`ip4` codec module, and the `Multiaddr.decapsulate_code` /
`Multiaddr.get_peer_id` methods) are modelled from the specification and
are marked as such in their doc comments.
-/

deriving instance DecidableEq for Except

namespace Multiaddr

/-- Byte strings (`bytes` in Python) are lists of naturals, each < 256. -/
abbrev Bytes := List Nat

/-! ## Unsigned LEB128 varints (the external `varint` library)

`varint.encode` produces the minimal LEB128 encoding;
`varint.decode_stream` consumes bytes from a stream, failing on EOF. -/

/-- The fuelled worker of `varintEncode` (structural recursion so that
the kernel can evaluate it; fuel > n makes the base case unreachable). -/
def varintEncodeAux : Nat → Nat → Bytes
  | 0, _ => []
  | fuel + 1, n =>
    if n < 128 then [n]
    else (n % 128 + 128) :: varintEncodeAux fuel (n / 128)

/-- `varint.encode`: minimal unsigned LEB128 encoding of `n`. -/
def varintEncode (n : Nat) : Bytes := varintEncodeAux (n + 1) n

/-- `varint.decode_stream`: read one LEB128 integer off the front of the
buffer, returning the value and the remaining bytes; `none` models the
exception raised on a truncated stream. -/
def varintDecode : Bytes → Option (Nat × Bytes)
  | [] => none
  | b :: rest =>
    if b < 128 then some (b, rest)
    else
      match varintDecode rest with
      | none => none
      | some (v, rest') => some (b % 128 + 128 * v, rest')

/-! ## `Multiaddr.join` / `encapsulate` / `decapsulate`

A `Multiaddr` object is identified with its `_bytes` buffer: the
constructor stores bytes verbatim, `__eq__` compares buffers, and all of
`join`/`encapsulate`/`decapsulate` operate on the buffer alone
(`multiaddr/multiaddr.py`). -/

/-- `Multiaddr.join`: concatenate the canonical bytes of the arguments. -/
def join (addrs : List Bytes) : Bytes := addrs.flatten

/-- `Multiaddr.encapsulate`: `join(self, other)`. -/
def encapsulate (a other : Bytes) : Bytes := join [a, other]

/-- Python `bytes.rindex` scanning downwards from start index `i`:
the largest `j ≤ i` such that `s2` occurs in `s1` at offset `j`. -/
def rindexFrom (i : Nat) (s1 s2 : Bytes) : Option Nat :=
  if s2.isPrefixOf (s1.drop i) then some i
  else
    match i with
    | 0 => none
    | j + 1 => rindexFrom j s1 s2

/-- Python `s1.rindex(s2)` as an `Option`: the highest offset at which
`s2` occurs in `s1` (`none` models the `ValueError`).  As in Python,
`rindex s1 [] = some s1.length`. -/
def rindex (s1 s2 : Bytes) : Option Nat := rindexFrom s1.length s1 s2

/-- `Multiaddr.decapsulate`: cut the buffer just before the last
occurrence of `other`; if `other` does not occur, return the buffer
unchanged (the Python code returns a fresh copy). -/
def decapsulate (a other : Bytes) : Bytes :=
  match rindex a other with
  | some idx => a.take idx
  | none => a

/-! ## Python string helpers

`str.split(sep)`, `sep.join`, `str.rstrip`/`strip`, `str.isalnum` and
`int(s, 10)`, modelled over `List Char`. -/

/-- Python `str.split(sep)` for a one-character separator: splits on every
occurrence and keeps empty segments; the result is always non-empty. -/
def splitChar (sep : Char) : List Char → List (List Char)
  | [] => [[]]
  | c :: rest =>
    if c = sep then [] :: splitChar sep rest
    else
      match splitChar sep rest with
      | [] => [[c]]
      | t :: ts => (c :: t) :: ts

/-- Python `sep.join` for a one-character separator. -/
def joinChar (sep : Char) : List (List Char) → List Char
  | [] => []
  | [t] => t
  | t :: rest => t ++ sep :: joinChar sep rest

/-- Python `str.rstrip(c)`: drop trailing occurrences of `c`. -/
def rstripChar (c : Char) (l : List Char) : List Char :=
  (l.reverse.dropWhile (· = c)).reverse

/-- Python `str.strip(c)`: drop leading and trailing occurrences of `c`. -/
def stripChar (c : Char) (l : List Char) : List Char :=
  rstripChar c (l.dropWhile (· = c))

/-- The ASCII whitespace characters stripped by Python's `int()` and
`str.strip()`. -/
def isPySpace (c : Char) : Bool :=
  c = ' ' || c = '\t' || c = '\n' || c = '\x0d' || c = '\x0b' || c = '\x0c'

/-- Python `str.strip()` (no argument): strip whitespace from both ends. -/
def stripSpaces (l : List Char) : List Char :=
  ((l.dropWhile isPySpace).reverse.dropWhile isPySpace).reverse

/-- Python `str.isalnum` (restricted to ASCII letters and digits, which is
all the registry's protocol names and the inputs in this development use). -/
def pyIsAlnum (l : List Char) : Bool :=
  !l.isEmpty && l.all (fun c => c.isAlphanum)

/-- Numeric value of a list of decimal digit characters. -/
def digitsToNat (l : List Char) : Nat :=
  l.foldl (fun acc c => acc * 10 + (c.toNat - '0'.toNat)) 0

/-- The digit part of a Python integer literal: groups separated by single
underscores, each group non-empty and all decimal digits (`int("1_0")`
succeeds, `int("_1")`, `int("1_")`, `int("1__0")` fail). -/
def pyDigitsValid (l : List Char) : Bool :=
  !l.isEmpty && (splitChar '_' l).all (fun g => !g.isEmpty && g.all Char.isDigit)

/-- Python `int(s, 10)`: strip whitespace, optional sign, decimal digits
with underscore grouping; `none` models the `ValueError`. -/
def pythonInt (s : List Char) : Option Int :=
  let l := stripSpaces s
  let (neg, digits) :=
    match l with
    | '+' :: rest => (false, rest)
    | '-' :: rest => (true, rest)
    | rest => (false, rest)
  if pyDigitsValid digits then
    let n : Nat := digitsToNat (digits.filter (· ≠ '_'))
    some (if neg then -(n : Int) else (n : Int))
  else none

/-! ## UTF-8 (Python `str.encode("utf-8")` / `bytes.decode("utf-8")`) -/

/-- UTF-8 encoding of a single code point. -/
def utf8EncodeChar (c : Char) : Bytes :=
  let n := c.toNat
  if n < 0x80 then [n]
  else if n < 0x800 then [0xC0 + n / 64, 0x80 + n % 64]
  else if n < 0x10000 then [0xE0 + n / 4096, 0x80 + n / 64 % 64, 0x80 + n % 64]
  else [0xF0 + n / 262144, 0x80 + n / 4096 % 64, 0x80 + n / 64 % 64, 0x80 + n % 64]

/-- Python `str.encode("utf-8")`. -/
def utf8Encode (l : List Char) : Bytes :=
  (l.map utf8EncodeChar).flatten

/-- Whether `n` is a scalar value Lean's `Char` (and Python's `chr`) accepts. -/
def validScalar (n : Nat) : Bool :=
  (n < 0xD800 || (0xDFFF < n && n < 0x110000))

/-- One step of strict UTF-8 decoding, rejecting truncated sequences, bad
continuation bytes, overlong encodings and surrogates, as Python's strict
`bytes.decode("utf-8")` does. -/
def utf8DecodeGo : Nat → Bytes → Option (List Char)
  | _, [] => some []
  | 0, _ :: _ => none
  | fuel + 1, b :: rest =>
    if b < 0x80 then
      (utf8DecodeGo fuel rest).map (fun cs => Char.ofNat b :: cs)
    else if b < 0xC2 then none
    else if b < 0xE0 then
      match rest with
      | b1 :: rest' =>
        if 0x80 ≤ b1 && b1 < 0xC0 then
          let n := (b - 0xC0) * 64 + (b1 - 0x80)
          (utf8DecodeGo fuel rest').map (fun cs => Char.ofNat n :: cs)
        else none
      | _ => none
    else if b < 0xF0 then
      match rest with
      | b1 :: b2 :: rest' =>
        if 0x80 ≤ b1 && b1 < 0xC0 && 0x80 ≤ b2 && b2 < 0xC0 then
          let n := (b - 0xE0) * 4096 + (b1 - 0x80) * 64 + (b2 - 0x80)
          if 0x800 ≤ n && validScalar n then
            (utf8DecodeGo fuel rest').map (fun cs => Char.ofNat n :: cs)
          else none
        else none
      | _ => none
    else if b < 0xF5 then
      match rest with
      | b1 :: b2 :: b3 :: rest' =>
        if 0x80 ≤ b1 && b1 < 0xC0 && 0x80 ≤ b2 && b2 < 0xC0 &&
            0x80 ≤ b3 && b3 < 0xC0 then
          let n := (b - 0xF0) * 262144 + (b1 - 0x80) * 4096 +
            (b2 - 0x80) * 64 + (b3 - 0x80)
          if 0x10000 ≤ n && n < 0x110000 then
            (utf8DecodeGo fuel rest').map (fun cs => Char.ofNat n :: cs)
          else none
        else none
      | _ => none
    else none

/-- Python strict `bytes.decode("utf-8")`. -/
def utf8Decode (b : Bytes) : Option (List Char) :=
  utf8DecodeGo b.length b

/-! ## Percent-coding (`urllib.parse.quote` / `unquote`) -/

def hexVal (c : Char) : Option Nat :=
  if '0' ≤ c ∧ c ≤ '9' then some (c.toNat - '0'.toNat)
  else if 'a' ≤ c ∧ c ≤ 'f' then some (c.toNat - 'a'.toNat + 10)
  else if 'A' ≤ c ∧ c ≤ 'F' then some (c.toNat - 'A'.toNat + 10)
  else none

def hexDigitUpper (n : Nat) : Char :=
  if n < 10 then Char.ofNat ('0'.toNat + n) else Char.ofNat ('A'.toNat + n - 10)

/-- `urllib.parse.unquote`, modelled at the character level: each valid
`%XX` escape becomes the character with that code, invalid escapes are
kept verbatim. -/
def percentUnquote : List Char → List Char
  | [] => []
  | '%' :: h1 :: h2 :: rest =>
    match hexVal h1, hexVal h2 with
    | some v1, some v2 => Char.ofNat (v1 * 16 + v2) :: percentUnquote rest
    | _, _ => '%' :: percentUnquote (h1 :: h2 :: rest)
  | c :: rest => c :: percentUnquote rest

/-- Characters `urllib.parse.quote` never escapes (plus the characters
passed via `safe`). -/
def quoteSafeChar (safe : List Char) (c : Char) : Bool :=
  c.isAlphanum || c = '_' || c = '.' || c = '-' || c = '~' || safe.contains c

/-- `urllib.parse.quote(s, safe)`: percent-escape the UTF-8 bytes of every
unsafe character. -/
def percentQuote (safe : List Char) (l : List Char) : List Char :=
  (l.map (fun c =>
    if quoteSafeChar safe c then [c]
    else (utf8EncodeChar c).flatMap
      (fun b => ['%', hexDigitUpper (b / 16), hexDigitUpper (b % 16)]))).flatten

/-! ## base58btc (the external `base58` library) -/

/-- The Bitcoin base58 alphabet. -/
def b58Alphabet : List Char :=
  "123456789ABCDEFGHJKLMNPQRSTUVWXYZabcdefghijkmnopqrstuvwxyz".data

def b58DigitVal (c : Char) : Option Nat :=
  b58Alphabet.findIdx? (· = c)

/-- Fuelled worker for `natToBytesBE`. -/
def natToBytesBEAux : Nat → Nat → Bytes
  | 0, _ => []
  | fuel + 1, n => if n = 0 then [] else natToBytesBEAux fuel (n / 256) ++ [n % 256]

/-- Big-endian base-256 digits of `n` (empty for 0). -/
def natToBytesBE (n : Nat) : Bytes := natToBytesBEAux (n + 1) n

def bytesToNatBE (b : Bytes) : Nat :=
  b.foldl (fun acc d => acc * 256 + d) 0

/-- Fuelled worker for `natToB58`. -/
def natToB58Aux : Nat → Nat → List Char
  | 0, _ => []
  | fuel + 1, n =>
    if n = 0 then [] else natToB58Aux fuel (n / 58) ++ [b58Alphabet.getD (n % 58) '1']

/-- Big-endian base-58 digit characters of `n` (empty for 0). -/
def natToB58 (n : Nat) : List Char := natToB58Aux (n + 1) n

/-- `base58.b58decode`: fails on any character outside the alphabet;
each leading `'1'` contributes a leading zero byte. -/
def b58decode (s : List Char) : Option Bytes :=
  if s.all (fun c => (b58DigitVal c).isSome) then
    let n := s.foldl (fun acc c => acc * 58 + ((b58DigitVal c).getD 0)) 0
    let zeros := (s.takeWhile (· = '1')).length
    some (List.replicate zeros 0 ++ natToBytesBE n)
  else none

/-- `base58.b58encode` (already decoded to text, as the Python code always
does with `.decode("ascii")`). -/
def b58encode (b : Bytes) : List Char :=
  let zeros := (b.takeWhile (· = 0)).length
  List.replicate zeros '1' ++ natToB58 (bytesToNatBE b)

/-! ## IDNA labels (the external `idna` library's `check_label`)

Modelled: a label passes when it is non-empty, at most 63 characters,
made of lowercase ASCII letters, digits, hyphens or non-ASCII code
points (an approximation of the IDNA2008 PVALID set that is exact on
ASCII), and obeys the hyphen restrictions (no leading or trailing
hyphen, no `--` in positions 3-4). -/

def idnaValidChar (c : Char) : Bool :=
  c.isLower || c.isDigit || c = '-' || 0x80 ≤ c.toNat

def checkLabel (label : List Char) : Bool :=
  !label.isEmpty && label.length ≤ 63 && label.all idnaValidChar &&
    label.head? ≠ some '-' && label.getLast? ≠ some '-' &&
    !((label.drop 2).take 2 = ['-', '-'])

/-! ## Protocols and codec dispatch

`multiaddr/protocols.py` and `multiaddr/codecs/__init__.py` are absent
from `src/`; the `Protocol` descriptor, the registry table, the lookup
functions and `codec_by_name` are modelled from the spec (§3, §4.1,
§4.2, §9): a protocol is an immutable `(code, name, codec)` descriptor
with unique code and name, `LENGTH_PREFIXED_VAR_SIZE` is the
"variable/length-prefixed" size marker, and a protocol without a value
resolves to a codec of size class 0. -/

/-- Python strings as the engine manipulates them. -/
abbrev PyStr := List Char

/-- Modelled from the spec: the immutable protocol descriptor of
`multiaddr/protocols.py` (absent from `src/`): code, name, and the name
of its codec (`none` for protocols that carry no value). -/
structure Protocol where
  code : Nat
  name : PyStr
  codec : Option PyStr
  deriving DecidableEq, Repr

/-- Modelled from the spec: `Protocol.vcode`, the varint encoding of the
protocol code (used by `Multiaddr.split` to re-assemble components). -/
def Protocol.vcode (p : Protocol) : Bytes := varintEncode p.code

/-- Modelled from the spec: the "variable/length-prefixed" size marker of
`multiaddr/codecs/__init__.py` (absent from `src/`). -/
def LENGTH_PREFIXED_VAR_SIZE : Int := -1

/-- A codec object: its size class, its (protocol-dependent, for the
`utf8` codec's mutable `_is_path`) path flag, and the
`to_bytes`/`to_string` pair of `multiaddr/codecs/`. -/
structure CodecBase where
  SIZE : Int
  IS_PATH : Protocol → Bool
  to_bytes : Protocol → PyStr → Option Bytes
  to_string : Protocol → Bytes → Option PyStr

/-! ### The `uint16be` codec (`multiaddr/codecs/uint16be.py`) -/

def uint16beToBytes (_p : Protocol) (s : PyStr) : Option Bytes :=
  match pythonInt s with
  | none => none
  | some n => if n < 0 ∨ 65536 ≤ n then none else some [n.toNat / 256, n.toNat % 256]

def uint16beToString (_p : Protocol) (buf : Bytes) : Option PyStr :=
  if buf.length = 2 then some (Nat.repr (bytesToNatBE buf)).data else none

def uint16beCodec : CodecBase :=
  ⟨16, fun _ => false, uint16beToBytes, uint16beToString⟩

/-! ### The `ip4` codec

Modelled from the spec: the `ip4` codec module is absent from `src/`.
Spec §4.2: dotted-quad notation, raw 4-byte network-order binary form,
"a strict, validating, *reversible* transform" — each group is a
canonical decimal in [0, 255] (digits only, no leading zeros). -/

def canonicalByteGroup (g : List Char) : Bool :=
  !g.isEmpty && g.all Char.isDigit && (g.length = 1 || g.head? ≠ some '0') &&
    digitsToNat g ≤ 255

def ip4ToBytes (_p : Protocol) (s : PyStr) : Option Bytes :=
  let parts := splitChar '.' s
  if parts.length = 4 ∧ parts.all canonicalByteGroup then
    some (parts.map digitsToNat)
  else none

def ip4ToString (_p : Protocol) (buf : Bytes) : Option PyStr :=
  if buf.length = 4 ∧ buf.all (· < 256) then
    some (joinChar '.' (buf.map (fun b => (Nat.repr b).data)))
  else none

def ip4Codec : CodecBase :=
  ⟨32, fun _ => false, ip4ToBytes, ip4ToString⟩

/-! ### The `ip6` codec (`multiaddr/codecs/ip6.py`)

The source file delegates to the external `netaddr` library; its
parse/format behaviour is modelled here: colon-hex notation with at most
one `::` compression on input, and RFC 5952 output (lowercase hex, the
longest — leftmost on ties — run of two or more zero groups compressed
to `::`).  IPv4-embedded forms are outside the model. -/

def hexGroupVal (g : List Char) : Option Nat :=
  if g.isEmpty ∨ 4 < g.length then none
  else g.foldl (fun acc c => match acc, hexVal c with
    | some a, some v => some (a * 16 + v)
    | _, _ => none) (some 0)

def natToHexGo : Nat → Nat → List Char
  | 0, _ => []
  | fuel + 1, n =>
    if n = 0 then []
    else natToHexGo fuel (n / 16) ++
      [if n % 16 < 10 then Char.ofNat ('0'.toNat + n % 16)
       else Char.ofNat ('a'.toNat + n % 16 - 10)]

def natToHexAux (n : Nat) : List Char := natToHexGo (n + 1) n

def natToHexLower (n : Nat) : List Char :=
  if n = 0 then ['0'] else natToHexAux n

def ip6Groups (s : PyStr) : Option (List Nat) :=
  let parts := splitChar ':' s
  let parts := match parts with
    | [] :: [] :: rest => [] :: rest
    | other => other
  let parts := match parts.reverse with
    | [] :: [] :: rest => ([] :: rest).reverse
    | _ => parts
  let emptyCount := (parts.filter List.isEmpty).length
  if emptyCount = 0 then
    if parts.length = 8 then
      parts.foldr (fun g acc => match hexGroupVal g, acc with
        | some v, some gs => some (v :: gs)
        | _, _ => none) (some [])
    else none
  else if emptyCount = 1 ∧ parts.length ≤ 8 then
    let before := parts.takeWhile (fun g => !g.isEmpty)
    let after := (parts.dropWhile (fun g => !g.isEmpty)).drop 1
    let mid := List.replicate (8 - (before.length + after.length)) ([] : List Char)
    ((before.map hexGroupVal) ++ mid.map (fun _ => some 0) ++
      (after.map hexGroupVal)).foldr (fun g acc => match g, acc with
        | some v, some gs => some (v :: gs)
        | _, _ => none) (some [])
  else none

def ip6ToBytes (_p : Protocol) (s : PyStr) : Option Bytes :=
  match ip6Groups s with
  | none => none
  | some gs =>
    if gs.length = 8 ∧ gs.all (· < 65536) then
      some (gs.flatMap (fun g => [g / 256, g % 256]))
    else none

def bytesToGroups : Bytes → List Nat
  | hi :: lo :: rest => (hi * 256 + lo) :: bytesToGroups rest
  | _ => []

def bestZeroRun (gs : List Nat) : Nat × Nat :=
  (List.range gs.length).foldl (fun best i =>
    let len := ((gs.drop i).takeWhile (· = 0)).length
    if best.2 < len then (i, len) else best) (0, 0)

def ip6ToString (_p : Protocol) (buf : Bytes) : Option PyStr :=
  if buf.length = 16 ∧ buf.all (· < 256) then
    let gs := bytesToGroups buf
    let (start, len) := bestZeroRun gs
    if 2 ≤ len then
      some (joinChar ':' ((gs.take start).map natToHexLower) ++ [':', ':'] ++
        joinChar ':' ((gs.drop (start + len)).map natToHexLower))
    else some (joinChar ':' (gs.map natToHexLower))
  else none

def ip6Codec : CodecBase :=
  ⟨128, fun _ => false, ip6ToBytes, ip6ToString⟩

/-! ### The `domain` codec (`multiaddr/codecs/domain.py`) -/

def domainToBytes (_p : Protocol) (s : PyStr) : Option Bytes :=
  some (utf8Encode s)

def domainToString (_p : Protocol) (buf : Bytes) : Option PyStr :=
  match utf8Decode buf with
  | none => none
  | some s => if (splitChar '.' s).all checkLabel then some s else none

def domainCodec : CodecBase :=
  ⟨LENGTH_PREFIXED_VAR_SIZE, fun _ => false, domainToBytes, domainToString⟩

/-! ### The `cid` codec (`multiaddr/codecs/cid.py`) -/

/-- `_is_binary_cidv0_multihash`: a base58btc encode/decode round trip
compared against the original buffer. -/
def isBinaryCidv0Multihash (buf : Bytes) : Bool :=
  b58decode (b58encode buf) == some buf

def protoNameToCidv1Codec (name : PyStr) : Option PyStr :=
  if name = "p2p".data then some "libp2p-key".data
  else if name = "ipfs".data then some "dag-pb".data
  else none

/-- Model of the external `cid.make_cid` / CIDv1 parsing path: the branch
is reached only for strings that are not valid base58btc, and no input
in this development is a CIDv1; the model makes the branch fail. -/
def makeCid (_s : PyStr) : Option Bytes := none

def cidToBytes (_p : Protocol) (s : PyStr) : Option Bytes :=
  if s.isEmpty then none
  else
    let cidv1Branch := (makeCid s).map (fun b => varintEncode b.length ++ b)
    match b58decode s with
    | some decoded =>
      if isBinaryCidv0Multihash decoded then
        some (varintEncode decoded.length ++ decoded)
      else cidv1Branch
    | none => cidv1Branch

def cidToString (p : Protocol) (buf : Bytes) : Option PyStr :=
  if buf.isEmpty then none
  else
    let _expected := protoNameToCidv1Codec p.name
    if isBinaryCidv0Multihash buf then
      -- with and without a pinned multicodec the CIDv0 branch returns the
      -- base58btc encoding
      some (b58encode buf)
    else
      -- `cid.from_bytes` path, unreachable because the round trip above
      -- always succeeds; modelled as a parse failure
      none

def cidCodec : CodecBase :=
  ⟨LENGTH_PREFIXED_VAR_SIZE, fun _ => false, cidToBytes, cidToString⟩

/-! ### The `fspath` codec (`multiaddr/codecs/fspath.py`) -/

def fspathNormalize (s : PyStr) : PyStr :=
  stripChar '/' (s.map (fun c => if c = '\\' then '/' else c))

def fspathToBytes (_p : Protocol) (s : PyStr) : Option Bytes :=
  if s.isEmpty then none
  else
    let v := fspathNormalize s
    if v.isEmpty then none
    else some (utf8Encode (percentUnquote v))

def fspathToString (_p : Protocol) (buf : Bytes) : Option PyStr :=
  if buf.isEmpty then none
  else
    match utf8Decode buf with
    | none => none
    | some s =>
      let v := fspathNormalize s
      if v.isEmpty then none else some (percentQuote ['/'] v)

def fspathCodec : CodecBase :=
  ⟨LENGTH_PREFIXED_VAR_SIZE, fun _ => true, fspathToBytes, fspathToString⟩

/-! ### The `utf8` codec (`multiaddr/codecs/utf8.py`)

Its `SIZE` is 0 in the source even though its `to_bytes` emits a varint
length prefix, and its `IS_PATH` property mutates to
`proto.name == "ip6zone"` whenever `to_bytes`/`to_string` runs; the net
effect at every read site is the function of the protocol used here. -/

def utf8ToBytes (p : Protocol) (s : PyStr) : Option Bytes :=
  if s.isEmpty then none
  else
    let v := percentUnquote s
    let v := if p.name = "ip6zone".data then stripSpaces v else v
    if p.name = "ip6zone".data ∧ v.isEmpty then none
    else some (varintEncode (utf8Encode v).length ++ utf8Encode v)

def utf8ToString (p : Protocol) (buf : Bytes) : Option PyStr :=
  if buf.isEmpty then none
  else
    match utf8Decode buf with
    | none => none
    | some s =>
      let v := if p.name = "ip6zone".data then stripSpaces s else s
      if p.name = "ip6zone".data ∧ v.isEmpty then none
      else some (percentQuote ['%'] v)

def utf8Codec : CodecBase :=
  ⟨0, fun p => p.name = "ip6zone".data, utf8ToBytes, utf8ToString⟩

/-- Modelled from the spec: the codec object handed out for protocols
whose `codec` is `None` (size class "no value"). -/
def noneCodec : CodecBase :=
  ⟨0, fun _ => false, fun _ _ => none, fun _ _ => none⟩

/-! ### The registry (`multiaddr/protocols.py`, modelled from the spec) -/

def P_IP4 : Nat := 4
def P_TCP : Nat := 6
def P_IP6 : Nat := 41
def P_IP6ZONE : Nat := 42
def P_DNS : Nat := 53
def P_DNS4 : Nat := 54
def P_DNS6 : Nat := 55
def P_DNSADDR : Nat := 56
def P_SCTP : Nat := 132
def P_UDP : Nat := 273
def P_P2P_CIRCUIT : Nat := 290
def P_UNIX : Nat := 400
def P_P2P : Nat := 421

/-- Modelled from the spec: the protocol table (unique codes, unique
names, codec references; the codes are the libp2p registry values). -/
def REGISTRY : List Protocol :=
  [⟨P_IP4, "ip4".data, some "ip4".data⟩,
   ⟨P_TCP, "tcp".data, some "uint16be".data⟩,
   ⟨P_IP6, "ip6".data, some "ip6".data⟩,
   ⟨P_IP6ZONE, "ip6zone".data, some "utf8".data⟩,
   ⟨P_DNS, "dns".data, some "domain".data⟩,
   ⟨P_DNS4, "dns4".data, some "domain".data⟩,
   ⟨P_DNS6, "dns6".data, some "domain".data⟩,
   ⟨P_DNSADDR, "dnsaddr".data, some "domain".data⟩,
   ⟨P_SCTP, "sctp".data, some "uint16be".data⟩,
   ⟨P_UDP, "udp".data, some "uint16be".data⟩,
   ⟨P_P2P_CIRCUIT, "p2p-circuit".data, none⟩,
   ⟨P_UNIX, "unix".data, some "fspath".data⟩,
   ⟨P_P2P, "p2p".data, some "cid".data⟩]

/-- `protocol_with_name` (`none` models `ProtocolNotFoundError`). -/
def protocol_with_name (name : PyStr) : Option Protocol :=
  REGISTRY.find? (fun p => p.name = name)

/-- `protocol_with_code` (`none` models `ProtocolNotFoundError`). -/
def protocol_with_code (code : Nat) : Option Protocol :=
  REGISTRY.find? (fun p => p.code = code)

/-- `codec_by_name`, resolving a codec name to its codec object
(`none` models the `ImportError` for an unknown codec). -/
def codec_by_name : Option PyStr → Option CodecBase
  | none => some noneCodec
  | some n =>
    if n = "ip4".data then some ip4Codec
    else if n = "uint16be".data then some uint16beCodec
    else if n = "ip6".data then some ip6Codec
    else if n = "utf8".data then some utf8Codec
    else if n = "domain".data then some domainCodec
    else if n = "fspath".data then some fspathCodec
    else if n = "cid".data then some cidCodec
    else none

/-! ## The transform engine (`multiaddr/transforms.py`) -/

/-- The distinguishable `StringParseError` cases raised by
`string_iter` / `string_to_bytes`. -/
inductive StrErr
  | emptyString
  | mustBeginWithSlash
  | unknownProtocol (element : PyStr)
  | requiresPath (proto : PyStr)
  | invalidPath (proto : PyStr)
  | requiresAddress (proto : PyStr)
  | missingValue (proto : PyStr)
  | invalidValue (proto : PyStr)
  | codecFailed (proto : PyStr)
  deriving DecidableEq, Repr

/-- One `(proto, codec, value)` triple yielded by `string_iter`. -/
structure SComp where
  proto : Protocol
  codec : Option CodecBase
  value : Option PyStr

/-- The token-consuming loop of `string_iter`, over the already-split
token list (fuel ≥ list length makes the fuel branch unreachable: every
iteration consumes at least one token). -/
def string_iter_go : Nat → List PyStr → Except StrErr (List SComp)
  | _, [] => .ok []
  | 0, _ :: _ => .error .emptyString
  | fuel + 1, element :: sp =>
    if element.isEmpty then string_iter_go fuel sp
    else
      match protocol_with_name element with
      | none => .error (.unknownProtocol element)
      | some proto =>
        match proto.codec with
        | none => (string_iter_go fuel sp).map (⟨proto, none, none⟩ :: ·)
        | some codecName =>
          match codec_by_name (some codecName) with
          | none => .error (.unknownProtocol element)
          | some codec =>
            if codec.SIZE = 0 then
              (string_iter_go fuel sp).map (⟨proto, some codec, none⟩ :: ·)
            else if proto.name = "unix".data then
              let path_value := if sp.isEmpty then [] else joinChar '/' sp
              if path_value.isEmpty then .error (.requiresPath proto.name)
              else
                match codec.to_bytes proto path_value with
                | some _ => .ok [⟨proto, some codec, some path_value⟩]
                | none => .error (.invalidPath proto.name)
            else
              match sp.dropWhile List.isEmpty with
              | [] => .error (.requiresAddress proto.name)
              | next_elem :: rest =>
                match codec.to_bytes proto next_elem with
                | some _ =>
                  (string_iter_go fuel rest).map
                    (⟨proto, some codec, some next_elem⟩ :: ·)
                | none =>
                  if pyIsAlnum next_elem then
                    match protocol_with_name next_elem with
                    | some _ => .error (.missingValue proto.name)
                    | none => .error (.invalidValue proto.name)
                  else .error (.invalidValue proto.name)

/-- `string_iter`: validate the leading `/`, strip trailing slashes,
split on `/`, drop the first (empty) segment, and run the token loop. -/
def string_iter (s : PyStr) : Except StrErr (List SComp) :=
  if s.isEmpty then .error .emptyString
  else if s.head? ≠ some '/' then .error .mustBeginWithSlash
  else
    let sp := splitChar '/' (rstripChar '/' s)
    string_iter_go sp.length sp.tail

/-- The byte-emitting fold of `string_to_bytes` over the yielded
components: varint code, then (for value-carrying components) the
re-encoded value with a varint length prefix for `LENGTH_PREFIXED_VAR_SIZE`
codecs. -/
def serializeComps : List SComp → Except StrErr Bytes
  | [] => .ok []
  | comp :: rest =>
    let head : Except StrErr Bytes :=
      match comp.value, comp.codec with
      | some v, some codec =>
        match codec.to_bytes comp.proto v with
        | none => .error (.codecFailed comp.proto.name)
        | some buf =>
          .ok (varintEncode comp.proto.code ++
            (if codec.SIZE = LENGTH_PREFIXED_VAR_SIZE then varintEncode buf.length
             else []) ++ buf)
      | some _, none => .error (.codecFailed comp.proto.name)
      | none, some codec =>
        if codec.SIZE ≠ 0 then .error (.missingValue comp.proto.name)
        else .ok (varintEncode comp.proto.code)
      | none, none => .ok (varintEncode comp.proto.code)
    match head, serializeComps rest with
    | .error e, _ => .error e
    | _, .error e => .error e
    | .ok b, .ok bs => .ok (b ++ bs)

/-- `string_to_bytes`. -/
def string_to_bytes (s : PyStr) : Except StrErr Bytes :=
  string_iter s >>= serializeComps

/-- `BinaryParseError`, carrying the protocol identifier the source
computes (the last successfully decoded protocol's name, else the raw
code, else 0). -/
inductive BinErr
  | binaryParse (protoId : PyStr ⊕ Nat)
  deriving DecidableEq, Repr

def protoIdOf (prevProto : Option Protocol) (code : Option Nat) : PyStr ⊕ Nat :=
  match prevProto with
  | some p => .inl p.name
  | none => .inr (code.getD 0)

/-- The decode loop of `bytes_to_string`, threading the `proto`/`code`
variables that the source mutates across iterations for error reporting
(fuel ≥ buffer length + 1 makes the fuel branch unreachable: every
iteration consumes at least one byte). -/
def bytes_to_string_go :
    Nat → Option Protocol → Option Nat → Bytes → Except BinErr PyStr
  | 0, prevProto, prevCode, _ => .error (.binaryParse (protoIdOf prevProto prevCode))
  | _ + 1, _, _, [] => .ok []
  | fuel + 1, prevProto, prevCode, buf =>
    match varintDecode buf with
    | none => .error (.binaryParse (protoIdOf prevProto prevCode))
    | some (code, bs) =>
      match protocol_with_code code with
      | none => .error (.binaryParse (protoIdOf prevProto (some code)))
      | some proto =>
        match proto.codec with
        | none =>
          (bytes_to_string_go fuel (some proto) (some code) bs).map
            (fun tail => '/' :: proto.name ++ tail)
        | some codecName =>
          match codec_by_name (some codecName) with
          | none => .error (.binaryParse (.inl proto.name))
          | some codec =>
            let read :=
              if 0 < codec.SIZE then
                some (bs.take (codec.SIZE.toNat / 8), bs.drop (codec.SIZE.toNat / 8))
              else
                match varintDecode bs with
                | none => none
                | some (size, bs2) => some (bs2.take size, bs2.drop size)
            match read with
            | none => .error (.binaryParse (.inl proto.name))
            | some (part, remaining) =>
              match codec.to_string proto part with
              | none => .error (.binaryParse (.inl proto.name))
              | some value =>
                let piece :=
                  if codec.IS_PATH proto ∧ value.head? = some '/' then
                    '/' :: proto.name ++ value
                  else '/' :: proto.name ++ '/' :: value
                (bytes_to_string_go fuel (some proto) (some code) remaining).map
                  (piece ++ ·)

/-- `bytes_to_string`. -/
def bytes_to_string (buf : Bytes) : Except BinErr PyStr :=
  bytes_to_string_go (buf.length + 1) none none buf

/-! ## `bytes_iter` and the operations of `multiaddr/multiaddr.py` -/

/-- Errors surfaced while walking a binary buffer: the
`BinaryParseError("Unknown Protocol")` of `bytes_iter`, raw stream
errors from the uncaught varint reads, and the `BinaryParseError`
`MultiAddrItems` raises when a codec rejects a payload. -/
inductive IterErr
  | unknownProtocolIter (protoId : PyStr ⊕ Nat)
  | streamError
  | valueParseError (proto : PyStr)
  deriving DecidableEq, Repr

/-- `size_for_addr`: byte width of the value (a fixed `SIZE // 8`, or a
leading varint that is consumed from the stream). -/
def size_for_addr (codec : CodecBase) (bs : Bytes) : Option (Nat × Bytes) :=
  if 0 ≤ codec.SIZE then some (codec.SIZE.toNat / 8, bs)
  else
    match varintDecode bs with
    | none => none
    | some (size, rest) => some (size, rest)

/-- One iteration of `bytes_iter`: protocol code, protocol, codec, raw
payload, and the remaining buffer. -/
def iterStep (buf : Bytes) : Except IterErr (Protocol × CodecBase × Bytes × Bytes) :=
  match varintDecode buf with
  | none => .error .streamError
  | some (code, bs) =>
    match protocol_with_code code with
    | none => .error (.unknownProtocolIter (.inr code))
    | some proto =>
      match codec_by_name proto.codec with
      | none => .error (.unknownProtocolIter (.inl proto.name))
      | some codec =>
        match size_for_addr codec bs with
        | none => .error .streamError
        | some (size, bs2) => .ok (proto, codec, bs2.take size, bs2.drop size)

/-- A component yielded by `bytes_iter`: offset into the buffer,
protocol, codec, raw payload. -/
structure BComp where
  offset : Nat
  proto : Protocol
  codec : CodecBase
  part : Bytes

/-- The loop of `bytes_iter` (fuel ≥ buffer length + 1 makes the fuel
branch unreachable). -/
def bytes_iter_go : Nat → Nat → Bytes → Except IterErr (List BComp)
  | 0, _, _ => .error .streamError
  | _ + 1, _, [] => .ok []
  | fuel + 1, offset, buf =>
    match iterStep buf with
    | .error e => .error e
    | .ok (proto, codec, part, rest) =>
      (bytes_iter_go fuel (offset + (buf.length - rest.length)) rest).map
        (⟨offset, proto, codec, part⟩ :: ·)

/-- `bytes_iter`. -/
def bytes_iter (buf : Bytes) : Except IterErr (List BComp) :=
  bytes_iter_go (buf.length + 1) 0 buf

/-- `Multiaddr.protocols()` (`MultiAddrKeys`): the decoded protocol
sequence. -/
def protocolsOf (buf : Bytes) : Except IterErr (List Protocol) :=
  (bytes_iter buf).map (List.map BComp.proto)

/-- The value-decoding iteration of `MultiAddrItems.__iter__`. -/
def items_go : List BComp → Except IterErr (List (Protocol × Option PyStr))
  | [] => .ok []
  | c :: rest =>
    if c.codec.SIZE ≠ 0 then
      match c.codec.to_string c.proto c.part with
      | none => .error (.valueParseError c.proto.name)
      | some v => (items_go rest).map ((c.proto, some v) :: ·)
    else (items_go rest).map ((c.proto, none) :: ·)

/-- `Multiaddr.items()`. -/
def items (buf : Bytes) : Except IterErr (List (Protocol × Option PyStr)) :=
  bytes_iter buf >>= items_go

/-- The re-assembling loop of `Multiaddr.split`: emit one single-component
buffer per component, and once `maxsplit` components have been emitted,
bundle the remainder of the original buffer into one final element. -/
def split_go : Nat → Int → Nat → Nat → Bytes → Bytes → Except IterErr (List Bytes)
  | 0, _, _, _, _, _ => .error .streamError
  | _ + 1, _, _, _, _, [] => .ok []
  | fuel + 1, maxsplit, idx, offset, whole, buf =>
    if (idx : Int) = maxsplit then .ok [whole.drop offset]
    else
      match iterStep buf with
      | .error e => .error e
      | .ok (proto, codec, part, rest) =>
        let part_size := if codec.SIZE < 0 then varintEncode part.length else []
        let part_bytes := proto.vcode ++ part_size ++ part
        (split_go fuel maxsplit (idx + 1) (offset + (buf.length - rest.length))
          whole rest).map (part_bytes :: ·)

/-- `Multiaddr.split(maxsplit)`. -/
def split (buf : Bytes) (maxsplit : Int) : Except IterErr (List Bytes) :=
  split_go (buf.length + 1) maxsplit 0 0 buf buf

/-- Modelled from the spec: `Multiaddr.decapsulate_code` is absent from
`src/` (only its tests and the spec describe it).  Spec §4.5: remove the
component with the given protocol code and everything from that
component's start to the end of the buffer, using the last occurrence of
that code among the buffer's components; if the code is absent return
the address unchanged; on the empty address it is a no-op. -/
def decapsulate_code (buf : Bytes) (code : Nat) : Except IterErr Bytes :=
  (bytes_iter buf).map (fun comps =>
    match (comps.filter (fun c => c.proto.code = code)).getLast? with
    | some c => buf.take c.offset
    | none => buf)

/-- Index of the last element satisfying `p`. -/
def lastIdxWhere (p : α → Bool) : List α → Option Nat
  | [] => none
  | x :: rest =>
    match lastIdxWhere p rest with
    | some i => some (i + 1)
    | none => if p x then some 0 else none

/-- Modelled from the spec: `Multiaddr.get_peer_id` is absent from `src/`
(only its tests, the DNS resolver and the spec reference it).  Spec §4.5:
scan the decoded component sequence for `p2p-circuit` markers; with one
or more markers return the value of the first `p2p` component after the
last marker, otherwise the value of the first `p2p` component, or `None`
if none exists (values already normalized by the `p2p` codec's
`to_string`). -/
def get_peer_id (buf : Bytes) : Except IterErr (Option PyStr) :=
  (items buf).map (fun its =>
    let scanned :=
      match lastIdxWhere (fun it => it.1.name = "p2p-circuit".data) its with
      | some i => its.drop (i + 1)
      | none => its
    (scanned.find? (fun it => it.1.name = "p2p".data)).bind (·.2))

/-- `Multiaddr.value_for_protocol` restricted to a protocol that may be
absent: the decoded value of the first matching component, `none` when
the protocol is present without a value, wrapped in an outer `Option`
that is `none` when no component matches (the `ProtocolLookupError`). -/
def value_for_protocol (buf : Bytes) (code : Nat) :
    Except IterErr (Option (Option PyStr)) :=
  (items buf).map (fun its =>
    (its.find? (fun it => it.1.code = code)).map (·.2))

/-! ## The DNS resolver (`multiaddr/resolvers/dns.py`)

The network transport (`dns.asyncresolver`) is injected as an oracle
mapping a hostname and record type (`"A"`/`"AAAA"`) to an answer; the
`trio` cancellation scaffolding around it changes no data path and is
not part of the model.  `ResolutionError` and `RecursionLimitError` are
imported by the source but absent from `src/multiaddr/exceptions.py`;
they are modelled from the spec (§7) as two distinct error shapes. -/

/-- What one DNS query can produce: records, a swallowed
`NoAnswer`/`NXDOMAIN`, or a hard failure (any other exception). -/
inductive DnsAnswer
  | records (rs : List PyStr)
  | noAnswer
  | failure

/-- The injected resolver backend. -/
structure DnsOracle where
  query : PyStr → PyStr → DnsAnswer

/-- Modelled from the spec: the resolver error taxonomy of §7 —
`ResolutionError` (DNS failure) and `RecursionLimitError` (recursion
budget exhausted, never wrapped into `ResolutionError`), plus the
uncaught parse errors that propagate out of the pure prefix of
`DNSResolver.resolve`. -/
inductive ResolveErr
  | resolutionError (msg : PyStr)
  | recursionLimitError (msg : PyStr)
  | parseError (e : IterErr)

/-- `DNSResolver.MAX_RECURSIVE_DEPTH`. -/
def MAX_RECURSIVE_DEPTH : Int := 32

/-- `DNSResolver._clean_quotes`: strip every quote and whitespace
character. -/
def clean_quotes (t : PyStr) : PyStr :=
  t.filter (fun c => ¬ (c = '\'' ∨ c = '"' ∨ isPySpace c = true))

/-- The `is_valid_peer_id` closure of `_resolve_dnsaddr`. -/
def is_valid_peer_id (pid : PyStr) : Bool :=
  (match b58decode pid with
   | some d => d.length = 34 || d.length = 36 || d.length = 38 ||
       d.length = 42 || d.length = 46
   | none => false) ||
  ((pid.head? = some 'b' || pid.head? = some 'z') && 40 < pid.length)

/-- The record loop of `_resolve_dnsaddr` for one record family:
build `/{fam}/{address}` for each answer; when a usable peer ID is
present, try to encapsulate `/p2p/{peer_id}` and return that single
match early (`.inl`), skipping the address on encapsulation failure;
otherwise accumulate (`.inr`). -/
def dnsaddrRecords (peer_id : Option PyStr) (fam : PyStr) :
    List PyStr → Except Unit (Sum (List Bytes) (List Bytes))
  | [] => .ok (.inr [])
  | address :: rest =>
    match string_to_bytes ('/' :: fam ++ '/' :: address) with
    | .error _ => .error ()
    | .ok ma =>
      let usablePid :=
        match peer_id with
        | some p => !p.isEmpty && is_valid_peer_id p
        | none => false
      if usablePid then
        match peer_id with
        | some p =>
          match string_to_bytes ("/p2p/".data ++ p) with
          | .ok suffix => .ok (.inl [encapsulate ma suffix])
          | .error _ => dnsaddrRecords peer_id fam rest
        | none => dnsaddrRecords peer_id fam rest
      else
        (dnsaddrRecords peer_id fam rest).map (fun r =>
          match r with
          | .inl early => .inl early
          | .inr acc => .inr (ma :: acc))

/-- `DNSResolver._resolve_dnsaddr`: depth check, best-effort peer-ID
extraction from the original address, then the A/AAAA record loops with
early return on a peer-ID match; any mid-flight exception becomes a
`ResolutionError("Failed to resolve DNSADDR ...")`. -/
def resolve_dnsaddr (oracle : DnsOracle) (hostname : PyStr)
    (original : Bytes) (max_depth : Int) : Except ResolveErr (List Bytes) :=
  if max_depth ≤ 0 then
    .error (.recursionLimitError
      ("Maximum recursive depth exceeded for ".data ++ hostname))
  else
    let peer_id : Option PyStr :=
      match get_peer_id original with
      | .ok v => v
      | .error _ => none
    let wrap : Except ResolveErr (List Bytes) → Except ResolveErr (List Bytes) :=
      fun r =>
        match r with
        | .error _ =>
          .error (.resolutionError ("Failed to resolve DNSADDR ".data ++ hostname))
        | ok => ok
    wrap <| do
      let aStep : Except ResolveErr (Sum (List Bytes) (List Bytes)) :=
        match oracle.query hostname "A".data with
        | .noAnswer => .ok (.inr [])
        | .failure =>
          .error (.resolutionError ("Failed to resolve DNSADDR ".data ++ hostname))
        | .records rs =>
          match dnsaddrRecords peer_id "ip4".data rs with
          | .error _ =>
            .error (.resolutionError ("Failed to resolve DNSADDR ".data ++ hostname))
          | .ok r => .ok r
      match ← aStep with
      | .inl early => pure early
      | .inr acc4 =>
        let aaaaStep : Except ResolveErr (Sum (List Bytes) (List Bytes)) :=
          match oracle.query hostname "AAAA".data with
          | .noAnswer => .ok (.inr [])
          | .failure =>
            .error (.resolutionError ("Failed to resolve DNSADDR ".data ++ hostname))
          | .records rs =>
            match dnsaddrRecords peer_id "ip6".data rs with
            | .error _ =>
              .error (.resolutionError ("Failed to resolve DNSADDR ".data ++ hostname))
            | .ok r => .ok r
        match ← aaaaStep with
        | .inl early => pure early
        | .inr acc6 => pure (acc4 ++ acc6)

/-- One record family of `DNSResolver._resolve_dns`: each answer becomes
a single-component `/{fam}/{address}` multiaddr. -/
def dnsRecords (fam : PyStr) : List PyStr → Except Unit (List Bytes)
  | [] => .ok []
  | address :: rest =>
    match string_to_bytes ('/' :: fam ++ '/' :: address) with
    | .error _ => .error ()
    | .ok ma => (dnsRecords fam rest).map (ma :: ·)

/-- `DNSResolver._resolve_dns`: `dns` queries A and AAAA, `dns4` only A,
`dns6` only AAAA; `NoAnswer`/`NXDOMAIN` contribute nothing, any other
failure becomes `ResolutionError("Failed to resolve DNS ...")`. -/
def resolve_dns (oracle : DnsOracle) (hostname : PyStr) (protocol_code : Nat) :
    Except ResolveErr (List Bytes) :=
  let fail : Except ResolveErr (List Bytes) :=
    .error (.resolutionError ("Failed to resolve DNS ".data ++ hostname))
  let run (fam rt : PyStr) : Except ResolveErr (List Bytes) :=
    match oracle.query hostname rt with
    | .noAnswer => .ok []
    | .failure => fail
    | .records rs =>
      match dnsRecords fam rs with
      | .error _ => fail
      | .ok r => .ok r
  do
    let r4 ← if protocol_code = P_DNS ∨ protocol_code = P_DNS4 then
        run "ip4".data "A".data
      else pure []
    let r6 ← if protocol_code = P_DNS ∨ protocol_code = P_DNS6 then
        run "ip6".data "AAAA".data
      else pure []
    pure (r4 ++ r6)

/-- The options dictionary of `DNSResolver.resolve` (the cancellation
signal carries no data relevant to the model). -/
structure ResolveOptions where
  max_recursive_depth : Option Int

/-- `DNSResolver.resolve`: empty address → `ResolutionError("empty
multiaddr")`; first protocol not `dns`/`dns4`/`dns6`/`dnsaddr` →
`[maddr]` unchanged; empty hostname → `[maddr]`; otherwise run the
`dnsaddr` or forward resolution under the exception wrapper that
re-raises `RecursionLimitError` as-is and wraps everything else into
`ResolutionError`; an empty result list falls back to `[maddr]`. -/
def DNSResolver_resolve (oracle : DnsOracle) (buf : Bytes)
    (options : Option ResolveOptions) : Except ResolveErr (List Bytes) :=
  match protocolsOf buf with
  | .error e => .error (.parseError e)
  | .ok [] => .error (.resolutionError "empty multiaddr".data)
  | .ok (first :: _) =>
    if first.code = P_DNS ∨ first.code = P_DNS4 ∨ first.code = P_DNS6 ∨
        first.code = P_DNSADDR then
      match value_for_protocol buf first.code with
      | .error e => .error (.parseError e)
      | .ok none => .error (.parseError (.valueParseError first.name))
      | .ok (some hostname?) =>
        match hostname? with
        | none => .ok [buf]
        | some h =>
          if h.isEmpty then .ok [buf]
          else
            let hostname := clean_quotes h
            let max_depth :=
              match options with
              | some o => o.max_recursive_depth.getD MAX_RECURSIVE_DEPTH
              | none => MAX_RECURSIVE_DEPTH
            let inner :=
              if first.code = P_DNSADDR then
                resolve_dnsaddr oracle hostname buf max_depth
              else resolve_dns oracle hostname first.code
            match inner with
            | .error (.recursionLimitError m) => .error (.recursionLimitError m)
            | .error _ =>
              .error (.resolutionError ("Failed to resolve ".data ++ hostname))
            | .ok resolved =>
              if resolved.isEmpty then .ok [buf] else .ok resolved
    else .ok [buf]

/-! ## Validity and canonicity predicates used by the round-trip and
split claims -/

/-- The string form `/tok1/tok2/.../tokn` with no redundant slashes. -/
def slashJoin (toks : List PyStr) : PyStr := '/' :: joinChar '/' toks

/-- Every token contributes `/token`. -/
def tokensFlat (toks : List PyStr) : PyStr :=
  (toks.map (fun t => '/' :: t)).flatten

/-- A well-formed token: non-empty and without the structural `/`. -/
def TokOk (t : PyStr) : Prop := t ≠ [] ∧ '/' ∉ t

/-- The string piece `bytes_to_string` re-emits for one component (in the
non-path-branch shape, which is the one taken for slash-free values). -/
def pieceOf (c : SComp) : PyStr :=
  match c.value with
  | none => '/' :: c.proto.name
  | some v => '/' :: c.proto.name ++ '/' :: v

def piecesOf (comps : List SComp) : PyStr :=
  (comps.map pieceOf).flatten

/-- What `string_iter` guarantees about every component it yields:
the protocol round-trips through the registry by code, the codec slot is
the resolved codec object of the protocol's codec name, and a present
value is a non-empty slash-free-headed string. -/
def ParseInv (c : SComp) : Prop :=
  protocol_with_code c.proto.code = some c.proto ∧
  (match c.codec with
   | none => c.proto.codec = none
   | some codec => ∃ cn, c.proto.codec = some cn ∧
       codec_by_name (some cn) = some codec) ∧
  (match c.value with
   | none => True
   | some v => v.head? ≠ some '/')

/-- Canonicity of a parsed component's value: the codec's
`to_string ∘ to_bytes` is the identity on it, fixed-size codecs emit
exactly their width, and the codec is not of the size class 0 (whose
write/read framing disagrees, see the `utf8` codec). -/
def CanonValue (c : SComp) : Prop :=
  match c.value, c.codec with
  | some v, some codec =>
    ∃ buf, codec.to_bytes c.proto v = some buf ∧
      codec.to_string c.proto buf = some v ∧
      (0 < codec.SIZE → buf.length = codec.SIZE.toNat / 8) ∧
      codec.SIZE ≠ 0
  | none, none => True
  | _, _ => False

/-- The binary serialization of one raw `(protocol, payload)` component,
exactly as both `string_to_bytes` and `Multiaddr.split` emit it. -/
def encodeComp (c : Protocol × Bytes) : Bytes :=
  match codec_by_name c.1.codec with
  | some codec =>
    varintEncode c.1.code ++
      (if codec.SIZE < 0 then varintEncode c.2.length else []) ++ c.2
  | none => varintEncode c.1.code ++ c.2

def encodeComps (comps : List (Protocol × Bytes)) : Bytes :=
  (comps.map encodeComp).flatten

/-- A raw component the binary walker can decode back: its protocol is
found by code lookup, its codec resolves, and a fixed-size payload has
exactly the codec's width. -/
def CompOk (c : Protocol × Bytes) : Prop :=
  protocol_with_code c.1.code = some c.1 ∧
  ∃ codec, codec_by_name c.1.codec = some codec ∧
    (0 ≤ codec.SIZE → c.2.length = codec.SIZE.toNat / 8)

/-- The list `Multiaddr.split(maxsplit)` builds over a buffer of shape
`encodeComps comps`, mirroring the loop: one re-encoded component per
iteration until `idx = maxsplit`, then the remainder of the original
buffer. -/
def splitExpected (maxsplit : Int) : Nat → Nat → Bytes →
    List (Protocol × Bytes) → List Bytes
  | _, _, _, [] => []
  | idx, offset, whole, c :: rest =>
    if (idx : Int) = maxsplit then [whole.drop offset]
    else encodeComp c ::
      splitExpected maxsplit (idx + 1) (offset + (encodeComp c).length) whole rest

/-! ## Lemmas -/

theorem varintEncodeAux_irrel :
    ∀ (fuel fuel' n : Nat), n < fuel → n < fuel' →
      varintEncodeAux fuel n = varintEncodeAux fuel' n := by
  intro fuel
  induction fuel with
  | zero => intro fuel' n h _; omega
  | succ f ih =>
    intro fuel' n h h'
    cases fuel' with
    | zero => omega
    | succ f' =>
      simp only [varintEncodeAux]
      by_cases h128 : n < 128
      · simp [h128]
      · have hdiv : n / 128 < n := Nat.div_lt_self (by omega) (by omega)
        simp only [h128, if_false]
        rw [ih f' (n / 128) (by omega) (by omega)]

/-- The defining recurrence of `varintEncode`. -/
theorem varintEncode_eq (n : Nat) :
    varintEncode n =
      if n < 128 then [n] else (n % 128 + 128) :: varintEncode (n / 128) := by
  show varintEncodeAux (n + 1) n = _
  simp only [varintEncodeAux]
  by_cases h : n < 128
  · simp [h]
  · have hdiv : n / 128 < n := Nat.div_lt_self (by omega) (by omega)
    simp only [h, if_false]
    rw [varintEncodeAux_irrel n (n / 128 + 1) (n / 128) (by omega) (by omega)]
    rfl

theorem varintEncode_ne_nil (n : Nat) : varintEncode n ≠ [] := by
  rw [varintEncode_eq]
  split <;> simp

theorem varintEncode_length_pos (n : Nat) : 0 < (varintEncode n).length := by
  cases h : varintEncode n with
  | nil => exact absurd h (varintEncode_ne_nil n)
  | cons a l => simp

/-- Decoding the minimal encoding returns the original value and leaves
the trailing bytes untouched. -/
theorem varintDecode_encode (n : Nat) (rest : Bytes) :
    varintDecode (varintEncode n ++ rest) = some (n, rest) := by
  induction n using Nat.strong_induction_on with
  | _ n ih =>
    rw [varintEncode_eq]
    by_cases h : n < 128
    · simp [h, varintDecode]
    · have hdiv : n / 128 < n := Nat.div_lt_self (by omega) (by omega)
      simp only [if_neg h, List.cons_append, varintDecode]
      have hh : ¬ (n % 128 + 128 < 128) := by omega
      simp only [hh, if_false, List.append_eq]
      rw [ih (n / 128) hdiv]
      have h3 : n % 128 + 128 * (n / 128) = n := by
        have := Nat.mod_add_div n 128
        omega
      simp [h3]

theorem rindexFrom_mem {i : Nat} {s1 s2 : Bytes} {j : Nat}
    (h : rindexFrom i s1 s2 = some j) : s2 <+: s1.drop j := by
  induction i with
  | zero =>
    unfold rindexFrom at h
    split at h
    · next hp =>
      cases h
      exact List.isPrefixOf_iff_prefix.mp hp
    · simp at h
  | succ k ih =>
    unfold rindexFrom at h
    split at h
    · next hp =>
      cases h
      exact List.isPrefixOf_iff_prefix.mp hp
    · exact ih h

/-- Scanning down from `a.length + k` over `a ++ b` finds the suffix
occurrence of `b` at offset `a.length`, for any `k ≤ b.length`. -/
theorem rindexFrom_append_self (a b : Bytes) :
    ∀ k, k ≤ b.length → rindexFrom (a.length + k) (a ++ b) b = some a.length := by
  intro k
  induction k with
  | zero =>
    intro _
    unfold rindexFrom
    have hdrop : (a ++ b).drop a.length = b := by
      simp [List.drop_append_eq_append_drop]
    rw [Nat.add_zero, hdrop]
    simp [List.isPrefixOf_iff_prefix]
  | succ k ih =>
    intro hk
    unfold rindexFrom
    have hlen : ((a ++ b).drop (a.length + (k + 1))).length < b.length := by
      simp only [List.length_drop, List.length_append]
      omega
    have hnp : ¬ b.isPrefixOf ((a ++ b).drop (a.length + (k + 1))) := by
      intro hp
      have := (List.isPrefixOf_iff_prefix.mp hp).length_le
      omega
    simp only [hnp, if_false]
    exact ih (by omega)

theorem rindex_append_self (a b : Bytes) :
    rindex (a ++ b) b = some a.length := by
  have h := rindexFrom_append_self a b b.length (Nat.le_refl _)
  simpa [rindex, List.length_append] using h

/-- `a.encapsulate(b).decapsulate(b) = a` at the byte level. -/
theorem encapsulate_eq_append (a b : Bytes) : encapsulate a b = a ++ b := by
  simp [encapsulate, join]

/-- `a.encapsulate(b).decapsulate(b) = a` at the byte level. -/
theorem decapsulate_encapsulate (a b : Bytes) :
    decapsulate (encapsulate a b) b = a := by
  rw [encapsulate_eq_append]
  unfold decapsulate
  rw [rindex_append_self]
  exact List.take_left a b

/-- If `other` never occurs in `a` as a contiguous substring, every
downward scan fails. -/
theorem rindexFrom_eq_none_of_not_contained {a other : Bytes}
    (h : ¬ other <:+: a) : ∀ i, rindexFrom i a other = none := by
  intro i
  cases hr : rindexFrom i a other with
  | none => rfl
  | some j =>
    exfalso
    apply h
    have hpre := rindexFrom_mem hr
    exact hpre.isInfix.trans (a.drop_suffix j).isInfix

theorem decapsulate_not_contained {a other : Bytes}
    (h : ¬ other <:+: a) : decapsulate a other = a := by
  unfold decapsulate rindex
  rw [rindexFrom_eq_none_of_not_contained h]

theorem encodeComp_ne_nil (c : Protocol × Bytes) : encodeComp c ≠ [] := by
  unfold encodeComp
  cases codec_by_name c.1.codec with
  | none =>
    intro h
    rw [List.append_eq_nil] at h
    exact varintEncode_ne_nil _ h.1
  | some codec =>
    intro h
    rw [List.append_eq_nil, List.append_eq_nil] at h
    exact varintEncode_ne_nil _ h.1.1

theorem length_le_encodeComps_length (comps : List (Protocol × Bytes)) :
    comps.length ≤ (encodeComps comps).length := by
  induction comps with
  | nil => simp [encodeComps]
  | cons c rest ih =>
    have h1 : 0 < (encodeComp c).length := by
      cases he : encodeComp c with
      | nil => exact absurd he (encodeComp_ne_nil c)
      | cons b bs => simp
    simp only [encodeComps, List.map_cons, List.flatten_cons, List.length_cons,
      List.length_append]
    simp only [encodeComps] at ih
    omega

theorem iterStep_encodeComp (c : Protocol × Bytes) (rest : Bytes)
    (codec : CodecBase)
    (hp : protocol_with_code c.1.code = some c.1)
    (hc : codec_by_name c.1.codec = some codec)
    (hlen : 0 ≤ codec.SIZE → c.2.length = codec.SIZE.toNat / 8) :
    iterStep (encodeComp c ++ rest) = .ok (c.1, codec, c.2, rest) := by
  unfold iterStep encodeComp
  rw [hc]
  by_cases hs : codec.SIZE < 0
  · simp only [hs, if_true, List.append_assoc]
    simp only [varintDecode_encode]
    simp only [hp, hc]
    unfold size_for_addr
    rw [if_neg (by omega : ¬ (0 : Int) ≤ codec.SIZE)]
    simp only [varintDecode_encode]
    rw [List.take_left, List.drop_left]
  · have hlen' : c.2.length = codec.SIZE.toNat / 8 := hlen (by omega)
    simp only [hs, if_false, List.nil_append, List.append_assoc]
    simp only [varintDecode_encode]
    simp only [hp, hc]
    unfold size_for_addr
    rw [if_pos (by omega : (0 : Int) ≤ codec.SIZE)]
    simp only [← hlen', List.take_left, List.drop_left]

theorem splitExpected_cons (ms : Int) (idx offset : Nat) (whole : Bytes)
    (c : Protocol × Bytes) (rest : List (Protocol × Bytes)) :
    splitExpected ms idx offset whole (c :: rest) =
      if (idx : Int) = ms then [whole.drop offset]
      else encodeComp c ::
        splitExpected ms (idx + 1) (offset + (encodeComp c).length) whole rest := by
  rfl

theorem split_go_encode :
    ∀ (comps : List (Protocol × Bytes)) (fuel idx offset : Nat) (whole : Bytes)
      (maxsplit : Int),
      (∀ c ∈ comps, CompOk c) → comps.length < fuel →
      whole.drop offset = encodeComps comps →
      split_go fuel maxsplit idx offset whole (encodeComps comps) =
        .ok (splitExpected maxsplit idx offset whole comps) := by
  intro comps
  induction comps with
  | nil =>
    intro fuel idx offset whole ms _ hfuel _
    cases fuel with
    | zero => omega
    | succ f => rfl
  | cons c crest ih =>
    intro fuel idx offset whole ms hok hfuel hinv
    cases fuel with
    | zero => omega
    | succ f =>
      obtain ⟨hp, codec, hc, hlen⟩ := hok c (List.mem_cons_self _ _)
      have henc : encodeComps (c :: crest) = encodeComp c ++ encodeComps crest := by
        simp [encodeComps]
      have hne : encodeComp c ++ encodeComps crest ≠ [] := by
        simp only [ne_eq, List.append_eq_nil]
        intro ⟨h, _⟩
        exact encodeComp_ne_nil c h
      rw [henc] at hinv ⊢
      cases hb : encodeComp c ++ encodeComps crest with
      | nil => exact absurd hb hne
      | cons b bs =>
        simp only [split_go]
        by_cases hidx : (idx : Int) = ms
        · rw [if_pos hidx, splitExpected_cons, if_pos hidx]
        · rw [if_neg hidx, ← hb,
            iterStep_encodeComp c (encodeComps crest) codec hp hc hlen]
          have hpb : c.1.vcode ++
              (if codec.SIZE < 0 then varintEncode c.2.length else []) ++ c.2 =
              encodeComp c := by
            unfold encodeComp Protocol.vcode
            rw [hc]
          have hinv' : whole.drop (offset + (encodeComp c).length) =
              encodeComps crest := by
            rw [← List.drop_drop, hinv, List.drop_left]
          dsimp only
          have hlendiff : (encodeComp c ++ encodeComps crest).length -
              (encodeComps crest).length = (encodeComp c).length := by
            simp
          rw [hlendiff,
            ih f (idx + 1) (offset + (encodeComp c).length) whole ms
              (fun d hd => hok d (List.mem_cons_of_mem c hd))
              (by simp at hfuel ⊢; omega) hinv']
          rw [splitExpected_cons, if_neg hidx]
          simp only [Except.map]
          rw [hpb]

theorem splitExpected_flatten :
    ∀ (comps : List (Protocol × Bytes)) (idx offset : Nat) (whole : Bytes)
      (ms : Int),
      whole.drop offset = encodeComps comps →
      (splitExpected ms idx offset whole comps).flatten = whole.drop offset := by
  intro comps
  induction comps with
  | nil =>
    intro idx offset whole ms hinv
    rw [hinv]
    rfl
  | cons c crest ih =>
    intro idx offset whole ms hinv
    have henc : encodeComps (c :: crest) = encodeComp c ++ encodeComps crest := by
      simp [encodeComps]
    rw [henc] at hinv
    rw [splitExpected_cons]
    by_cases hidx : (idx : Int) = ms
    · rw [if_pos hidx]
      simp
    · rw [if_neg hidx]
      have hinv' : whole.drop (offset + (encodeComp c).length) =
          encodeComps crest := by
        rw [← List.drop_drop, hinv, List.drop_left]
      simp only [List.flatten_cons]
      rw [ih (idx + 1) (offset + (encodeComp c).length) whole ms hinv', hinv',
        hinv]

theorem splitExpected_of_lt :
    ∀ (comps : List (Protocol × Bytes)) (idx offset : Nat) (whole : Bytes)
      (ms : Int), ms < (idx : Int) →
      splitExpected ms idx offset whole comps = comps.map encodeComp := by
  intro comps
  induction comps with
  | nil => intro idx offset whole ms _; rfl
  | cons c crest ih =>
    intro idx offset whole ms hlt
    rw [splitExpected_cons, if_neg (by omega)]
    rw [ih (idx + 1) _ whole ms (by push_cast; omega)]
    rfl

theorem splitExpected_mid :
    ∀ (comps : List (Protocol × Bytes)) (k idx offset : Nat) (whole : Bytes)
      (ms : Int), ms = (idx : Int) + k → k < comps.length →
      splitExpected ms idx offset whole comps =
        (comps.take k).map encodeComp ++
          [whole.drop (offset + (encodeComps (comps.take k)).length)] := by
  intro comps
  induction comps with
  | nil => intro k idx offset whole ms _ hk; simp at hk
  | cons c crest ih =>
    intro k idx offset whole ms hms hk
    cases k with
    | zero =>
      rw [splitExpected_cons, if_pos (by omega)]
      simp [encodeComps]
    | succ k' =>
      rw [splitExpected_cons, if_neg (by omega)]
      rw [ih k' (idx + 1) (offset + (encodeComp c).length) whole ms
        (by push_cast; push_cast at hms; omega) (by simp at hk; omega)]
      have : encodeComps (c :: crest.take k') =
          encodeComp c ++ encodeComps (crest.take k') := by
        simp [encodeComps]
      simp only [List.take_succ_cons, List.map_cons, this, List.length_append,
        List.cons_append]
      rw [Nat.add_assoc]

theorem getLast?_ne_of_not_mem {α : Type} [DecidableEq α] (c : α) :
    ∀ l : List α, c ∉ l → l.getLast? ≠ some c := by
  intro l
  induction l with
  | nil => intro _; simp
  | cons a rest ih =>
    intro hmem
    cases rest with
    | nil =>
      simp only [List.getLast?_singleton, ne_eq, Option.some.injEq]
      intro heq
      exact hmem (heq ▸ List.mem_singleton_self a)
    | cons b t =>
      rw [List.getLast?_cons_cons]
      exact ih (fun hm => hmem (List.mem_cons_of_mem a hm))

theorem head?_ne_of_not_mem {α : Type} [DecidableEq α] (c : α) (l : List α)
    (h : c ∉ l) : l.head? ≠ some c := by
  cases l with
  | nil => simp
  | cons a rest =>
    simp only [List.head?_cons, ne_eq, Option.some.injEq]
    intro heq
    exact h (heq ▸ List.mem_cons_self a rest)

theorem dropWhile_eq_self_of_head {α : Type} (p : α → Bool) (l : List α)
    (h : ∀ a, l.head? = some a → p a = false) : l.dropWhile p = l := by
  cases l with
  | nil => rfl
  | cons a t =>
    rw [List.dropWhile_cons, h a rfl]
    simp

theorem rstripChar_eq_self (c : Char) (l : List Char)
    (h : l.getLast? ≠ some c) : rstripChar c l = l := by
  unfold rstripChar
  rw [dropWhile_eq_self_of_head, List.reverse_reverse]
  intro a ha
  rw [List.head?_reverse] at ha
  simp only [decide_eq_false_iff_not]
  intro heq
  exact h (heq ▸ ha)

theorem splitChar_cons (sep a : Char) (rest : List Char) :
    splitChar sep (a :: rest) =
      if a = sep then [] :: splitChar sep rest
      else
        match splitChar sep rest with
        | [] => [[a]]
        | t :: ts => (a :: t) :: ts := by
  rfl

theorem splitChar_sepfree (sep : Char) :
    ∀ t : List Char, sep ∉ t → splitChar sep t = [t] := by
  intro t
  induction t with
  | nil => intro _; rfl
  | cons a rest ih =>
    intro hmem
    have hns : ¬ (a = sep) := by
      intro heq
      apply hmem
      rw [← heq]
      exact List.mem_cons_self a rest
    rw [splitChar_cons, if_neg hns, ih (fun hm => hmem (List.mem_cons_of_mem a hm))]

theorem splitChar_append (sep : Char) :
    ∀ t l : List Char, sep ∉ t →
      splitChar sep (t ++ sep :: l) = t :: splitChar sep l := by
  intro t
  induction t with
  | nil =>
    intro l _
    show splitChar sep (sep :: l) = [] :: splitChar sep l
    rw [splitChar_cons, if_pos rfl]
  | cons a t' ih =>
    intro l hmem
    have hns : ¬ (a = sep) := by
      intro heq
      apply hmem
      rw [← heq]
      exact List.mem_cons_self a t'
    show splitChar sep (a :: (t' ++ sep :: l)) = (a :: t') :: splitChar sep l
    rw [splitChar_cons, if_neg hns, ih l (fun hm => hmem (List.mem_cons_of_mem a hm))]

theorem splitChar_join (sep : Char) :
    ∀ toks : List (List Char), toks ≠ [] → (∀ t ∈ toks, sep ∉ t) →
      splitChar sep (joinChar sep toks) = toks := by
  intro toks
  induction toks with
  | nil => intro h _; exact absurd rfl h
  | cons t rest ih =>
    intro _ hmem
    cases rest with
    | nil => exact splitChar_sepfree sep t (hmem t (List.mem_cons_self t []))
    | cons t2 r2 =>
      show splitChar sep (t ++ sep :: joinChar sep (t2 :: r2)) = _
      rw [splitChar_append sep t _ (hmem t (List.mem_cons_self t _))]
      rw [ih (by simp) (fun u hu => hmem u (List.mem_cons_of_mem t hu))]

theorem joinChar_ne_nil (sep : Char) (t : PyStr) (rest : List PyStr)
    (ht : t ≠ []) : joinChar sep (t :: rest) ≠ [] := by
  cases rest with
  | nil => exact ht
  | cons t2 r2 =>
    show t ++ sep :: joinChar sep (t2 :: r2) ≠ []
    simp

theorem joinChar_getLast? (sep : Char) :
    ∀ toks : List PyStr, toks ≠ [] → (∀ t ∈ toks, t ≠ [] ∧ sep ∉ t) →
      (joinChar sep toks).getLast? ≠ some sep := by
  intro toks
  induction toks with
  | nil => intro h _; exact absurd rfl h
  | cons t rest ih =>
    intro _ hmem
    cases rest with
    | nil =>
      show t.getLast? ≠ some sep
      exact getLast?_ne_of_not_mem sep t (hmem t (List.mem_cons_self t [])).2
    | cons t2 r2 =>
      show (t ++ sep :: joinChar sep (t2 :: r2)).getLast? ≠ some sep
      rw [List.getLast?_append]
      have hne : joinChar sep (t2 :: r2) ≠ [] :=
        joinChar_ne_nil sep t2 r2 (hmem t2 (by simp)).1
      have hlast := ih (by simp) (fun u hu => hmem u (List.mem_cons_of_mem t hu))
      cases hjc : joinChar sep (t2 :: r2) with
      | nil => exact absurd hjc hne
      | cons b bs =>
        rw [hjc] at hlast
        rw [List.getLast?_cons_cons]
        cases hbl : (b :: bs).getLast? with
        | none => simp at hbl
        | some x =>
          rw [hbl] at hlast
          simpa using hlast

theorem joinChar_head? (sep : Char) (t : PyStr) (rest : List PyStr)
    (ht : t ≠ []) : (joinChar sep (t :: rest)).head? = t.head? := by
  cases rest with
  | nil => rfl
  | cons t2 r2 =>
    show (t ++ sep :: joinChar sep (t2 :: r2)).head? = t.head?
    cases t with
    | nil => exact absurd rfl ht
    | cons a t' => rfl

theorem slashJoin_eq_tokensFlat :
    ∀ toks : List PyStr, toks ≠ [] → slashJoin toks = tokensFlat toks := by
  intro toks
  induction toks with
  | nil => intro h; exact absurd rfl h
  | cons t rest ih =>
    intro _
    cases rest with
    | nil => simp [slashJoin, tokensFlat, joinChar]
    | cons t2 r2 =>
      show ('/' :: (t ++ '/' :: joinChar '/' (t2 :: r2)) : PyStr) = _
      rw [show (tokensFlat (t :: t2 :: r2) : PyStr) =
        ('/' :: t) ++ tokensFlat (t2 :: r2) by simp [tokensFlat]]
      rw [← ih (by simp)]
      show ('/' : Char) :: (t ++ '/' :: joinChar '/' (t2 :: r2)) =
        ('/' :: t) ++ '/' :: joinChar '/' (t2 :: r2)
      simp

/-- Over a token list joined with single slashes, `string_iter` is
exactly the token loop. -/
theorem string_iter_slashJoin (toks : List PyStr) (hne : toks ≠ [])
    (htok : ∀ t ∈ toks, TokOk t) :
    string_iter (slashJoin toks) = string_iter_go (toks.length + 1) toks := by
  obtain ⟨t, rest, rfl⟩ : ∃ t rest, toks = t :: rest := by
    cases toks with
    | nil => exact absurd rfl hne
    | cons t rest => exact ⟨t, rest, rfl⟩
  have hjne : joinChar '/' (t :: rest) ≠ [] :=
    joinChar_ne_nil '/' t rest (htok t (List.mem_cons_self t rest)).1
  unfold string_iter slashJoin
  rw [if_neg (by simp)]
  rw [if_neg (by simp)]
  have hstrip : rstripChar '/' ('/' :: joinChar '/' (t :: rest)) =
      '/' :: joinChar '/' (t :: rest) := by
    apply rstripChar_eq_self
    have := joinChar_getLast? '/' (t :: rest) (by simp)
      (fun u hu => ⟨(htok u hu).1, (htok u hu).2⟩)
    cases hjc : joinChar '/' (t :: rest) with
    | nil => exact absurd hjc hjne
    | cons b bs =>
      rw [List.getLast?_cons_cons]
      rw [hjc] at this
      exact this
  rw [hstrip]
  have hsplit : splitChar '/' ('/' :: joinChar '/' (t :: rest)) =
      [] :: (t :: rest) := by
    show (if ('/' : Char) = '/' then [] :: splitChar '/' (joinChar '/' (t :: rest))
      else _) = _
    rw [if_pos rfl]
    rw [splitChar_join '/' (t :: rest) (by simp)
      (fun u hu => (htok u hu).2)]
  rw [hsplit]
  rfl

theorem piecesOf_cons (c : SComp) (comps : List SComp) :
    piecesOf (c :: comps) = pieceOf c ++ piecesOf comps := by
  simp [piecesOf]

theorem tokensFlat_cons (t : PyStr) (toks : List PyStr) :
    tokensFlat (t :: toks) = ('/' :: t) ++ tokensFlat toks := by
  simp [tokensFlat]

/-- Every registry protocol is found again by code lookup (codes are
unique in the modelled table). -/
theorem registry_code_lookup :
    ∀ p ∈ REGISTRY, protocol_with_code p.code = some p := by
  decide

theorem protocol_with_name_name {n : PyStr} {p : Protocol}
    (h : protocol_with_name n = some p) : p.name = n := by
  have := List.find?_some h
  simpa using this

theorem protocol_with_name_code {n : PyStr} {p : Protocol}
    (h : protocol_with_name n = some p) :
    protocol_with_code p.code = some p :=
  registry_code_lookup p (List.mem_of_find?_eq_some h)

theorem dropWhile_isEmpty_eq_self (sp : List PyStr)
    (h : ∀ t ∈ sp, TokOk t) : sp.dropWhile List.isEmpty = sp := by
  cases sp with
  | nil => rfl
  | cons v r =>
    rw [List.dropWhile_cons]
    have hv : v.isEmpty = false := by
      have := (h v (List.mem_cons_self v r)).1
      cases v with
      | nil => exact absurd rfl this
      | cons _ _ => rfl
    rw [hv]
    simp

/-- What the token loop guarantees: every yielded component satisfies
`ParseInv`, and — when every component's value is canonical — the
re-emitted string pieces are exactly the tokens, each with its leading
slash. -/
theorem string_iter_go_sound :
    ∀ (fuel : Nat) (toks : List PyStr) (comps : List SComp),
      toks.length < fuel →
      (∀ t ∈ toks, TokOk t) →
      string_iter_go fuel toks = .ok comps →
      (∀ c ∈ comps, ParseInv c) ∧
      ((∀ c ∈ comps, CanonValue c) → piecesOf comps = tokensFlat toks) := by
  intro fuel
  induction fuel with
  | zero => intro toks comps h _ _; omega
  | succ f ih =>
    intro toks comps hlen htok hgo
    cases toks with
    | nil =>
      cases hgo
      exact ⟨by simp, fun _ => rfl⟩
    | cons element sp =>
      have htokel := htok element (List.mem_cons_self _ _)
      have htoksp : ∀ t ∈ sp, TokOk t :=
        fun t ht => htok t (List.mem_cons_of_mem _ ht)
      have hel : element.isEmpty = false := by
        cases element with
        | nil => exact absurd rfl htokel.1
        | cons _ _ => rfl
      simp only [string_iter_go, hel, Bool.false_eq_true, if_false] at hgo
      cases hpn : protocol_with_name element with
      | none => simp [hpn] at hgo
      | some proto =>
        simp only [hpn] at hgo
        have hname : proto.name = element := protocol_with_name_name hpn
        have hcode : protocol_with_code proto.code = some proto :=
          protocol_with_name_code hpn
        cases hpc : proto.codec with
        | none =>
          simp only [hpc] at hgo
          cases hrec : string_iter_go f sp with
          | error e => rw [hrec] at hgo; simp [Except.map] at hgo
          | ok comps' =>
            rw [hrec] at hgo
            simp only [Except.map] at hgo
            cases hgo
            obtain ⟨ih1, ih2⟩ := ih sp comps' (by simp at hlen ⊢; omega)
              htoksp hrec
            constructor
            · intro c hc
              rcases List.mem_cons.mp hc with rfl | hc'
              · exact ⟨hcode, hpc, trivial⟩
              · exact ih1 c hc'
            · intro hcanon
              rw [piecesOf_cons, tokensFlat_cons,
                ih2 (fun c hc => hcanon c (List.mem_cons_of_mem _ hc))]
              show ('/' :: proto.name) ++ _ = _
              rw [hname]
        | some codecName =>
          simp only [hpc] at hgo
          cases hcbn : codec_by_name (some codecName) with
          | none => simp [hcbn] at hgo
          | some codec =>
            simp only [hcbn] at hgo
            by_cases hsz : codec.SIZE = 0
            · rw [if_pos hsz] at hgo
              cases hrec : string_iter_go f sp with
              | error e => rw [hrec] at hgo; simp [Except.map] at hgo
              | ok comps' =>
                rw [hrec] at hgo
                simp only [Except.map] at hgo
                cases hgo
                obtain ⟨ih1, ih2⟩ := ih sp comps' (by simp at hlen ⊢; omega)
                  htoksp hrec
                constructor
                · intro c hc
                  rcases List.mem_cons.mp hc with rfl | hc'
                  · exact ⟨hcode, ⟨codecName, hpc, hcbn⟩, trivial⟩
                  · exact ih1 c hc'
                · intro hcanon
                  exact absurd (hcanon _ (List.mem_cons_self _ _)) (by
                    simp [CanonValue])
            · rw [if_neg hsz] at hgo
              by_cases hunix : proto.name = "unix".data
              · rw [if_pos hunix] at hgo
                cases sp with
                | nil => simp at hgo
                | cons t rest =>
                  have htnn : t ≠ [] := (htoksp t (List.mem_cons_self _ _)).1
                  have hjnn : joinChar '/' (t :: rest) ≠ [] :=
                    joinChar_ne_nil '/' t rest htnn
                  simp only [List.isEmpty_cons, Bool.false_eq_true, if_false]
                    at hgo
                  have hjie : (joinChar '/' (t :: rest)).isEmpty = false := by
                    cases hjc : joinChar '/' (t :: rest) with
                    | nil => exact absurd hjc hjnn
                    | cons _ _ => rfl
                  rw [hjie] at hgo
                  simp only [Bool.false_eq_true, if_false] at hgo
                  cases htb : codec.to_bytes proto (joinChar '/' (t :: rest)) with
                  | none => simp [htb] at hgo
                  | some buf =>
                    simp only [htb] at hgo
                    cases hgo
                    constructor
                    · intro c hc
                      rcases List.mem_cons.mp hc with rfl | hc'
                      · refine ⟨hcode, ⟨codecName, hpc, hcbn⟩, ?_⟩
                        show (joinChar '/' (t :: rest)).head? ≠ some '/'
                        rw [joinChar_head? '/' t rest htnn]
                        exact head?_ne_of_not_mem '/' t
                          (htoksp t (List.mem_cons_self _ _)).2
                      · simp at hc'
                    · intro _
                      rw [piecesOf_cons, tokensFlat_cons]
                      show ('/' :: proto.name ++ '/' :: joinChar '/' (t :: rest))
                          ++ piecesOf [] = _
                      rw [hname]
                      have : ('/' :: joinChar '/' (t :: rest) : PyStr) =
                          tokensFlat (t :: rest) :=
                        slashJoin_eq_tokensFlat (t :: rest) (by simp)
                      show ('/' :: element) ++ ('/' :: joinChar '/' (t :: rest))
                          ++ piecesOf ([] : List SComp) = _
                      rw [this]
                      simp [piecesOf]
              · rw [if_neg hunix] at hgo
                rw [dropWhile_isEmpty_eq_self sp htoksp] at hgo
                cases sp with
                | nil => simp at hgo
                | cons v rest =>
                  cases htb : codec.to_bytes proto v with
                  | none =>
                    simp only [htb] at hgo
                    by_cases ha : pyIsAlnum v
                    · rw [if_pos ha] at hgo
                      cases hpn2 : protocol_with_name v <;> simp [hpn2] at hgo
                    · rw [if_neg ha] at hgo
                      simp at hgo
                  | some buf =>
                    simp only [htb] at hgo
                    cases hrec : string_iter_go f rest with
                    | error e => rw [hrec] at hgo; simp [Except.map] at hgo
                    | ok comps' =>
                      rw [hrec] at hgo
                      simp only [Except.map] at hgo
                      cases hgo
                      obtain ⟨ih1, ih2⟩ := ih rest comps'
                        (by simp at hlen ⊢; omega)
                        (fun u hu => htoksp u (List.mem_cons_of_mem _ hu)) hrec
                      constructor
                      · intro c hc
                        rcases List.mem_cons.mp hc with rfl | hc'
                        · refine ⟨hcode, ⟨codecName, hpc, hcbn⟩, ?_⟩
                          show v.head? ≠ some '/'
                          exact head?_ne_of_not_mem '/' v
                            (htoksp v (List.mem_cons_self _ _)).2
                        · exact ih1 c hc'
                      · intro hcanon
                        rw [piecesOf_cons, tokensFlat_cons, tokensFlat_cons,
                          ih2 (fun c hc => hcanon c (List.mem_cons_of_mem _ hc))]
                        show ('/' :: proto.name) ++ ('/' :: v) ++ _ = _
                        rw [hname]
                        simp

/-- Every codec object handed out by `codec_by_name` with a negative size
has exactly the length-prefixed marker size. -/
theorem codec_by_name_SIZE_neg {x : Option PyStr} {codec : CodecBase}
    (h : codec_by_name x = some codec) (hneg : codec.SIZE < 0) :
    codec.SIZE = LENGTH_PREFIXED_VAR_SIZE := by
  cases x with
  | none =>
    cases h
    exact absurd hneg (by decide)
  | some n =>
    simp only [codec_by_name] at h
    split_ifs at h <;> cases h <;> first
      | rfl
      | exact absurd hneg (by decide)

/-- Serialization of components satisfying the parse invariant with
canonical values succeeds, produces at least one byte per component, and
decodes back (at any sufficient fuel, with any error-reporting state) to
exactly the concatenation of the components' string pieces. -/
theorem serializeComps_sound :
    ∀ comps : List SComp,
      (∀ c ∈ comps, ParseInv c ∧ CanonValue c) →
      ∃ bytes, serializeComps comps = .ok bytes ∧ comps.length ≤ bytes.length ∧
        ∀ (fuel : Nat) (prevP : Option Protocol) (prevC : Option Nat),
          comps.length < fuel →
          bytes_to_string_go fuel prevP prevC bytes = .ok (piecesOf comps) := by
  intro comps
  induction comps with
  | nil =>
    intro _
    refine ⟨[], rfl, by simp, ?_⟩
    intro fuel prevP prevC hf
    cases fuel with
    | zero => omega
    | succ f => rfl
  | cons c rest ih =>
    intro h
    obtain ⟨bytes', hser', hlen', hdec'⟩ :=
      ih (fun d hd => h d (List.mem_cons_of_mem _ hd))
    obtain ⟨proto, codecOpt, valOpt⟩ := c
    obtain ⟨⟨hcode, hcdc, hvhead⟩, hcanon⟩ := h _ (List.mem_cons_self _ _)
    dsimp only at hcode hcdc hvhead hcanon
    cases valOpt with
    | none =>
      cases codecOpt with
      | some codec => exact absurd hcanon (by simp [CanonValue])
      | none =>
        have hpcn : proto.codec = none := hcdc
        refine ⟨varintEncode proto.code ++ bytes', ?_, ?_, ?_⟩
        · simp only [serializeComps]
          rw [hser']
        · have := varintEncode_length_pos proto.code
          simp only [List.length_append, List.length_cons]
          omega
        · intro fuel prevP prevC hf
          cases fuel with
          | zero => omega
          | succ f =>
            have hne : varintEncode proto.code ++ bytes' ≠ [] := by
              intro hnil
              rw [List.append_eq_nil] at hnil
              exact varintEncode_ne_nil _ hnil.1
            cases hb : varintEncode proto.code ++ bytes' with
            | nil => exact absurd hb hne
            | cons b bs =>
              simp only [bytes_to_string_go]
              rw [← hb]
              simp only [varintDecode_encode, hcode, hpcn]
              rw [hdec' f (some proto) (some proto.code)
                (by simp at hf ⊢; omega)]
              simp only [Except.map]
              rw [piecesOf_cons]
              rfl
    | some v =>
      cases codecOpt with
      | none => exact absurd hcanon (by simp [CanonValue])
      | some codec =>
        obtain ⟨buf, htb, hts, hflen, hsz⟩ := hcanon
        obtain ⟨cn, hpcdc, hcbn⟩ := hcdc
        have hvh : v.head? ≠ some '/' := hvhead
        have hpath : ¬ (codec.IS_PATH proto = true ∧ v.head? = some '/') := by
          intro ⟨_, hh⟩
          exact hvh hh
        by_cases hpos : 0 < codec.SIZE
        · have hnlp : ¬ (codec.SIZE = LENGTH_PREFIXED_VAR_SIZE) := by
            unfold LENGTH_PREFIXED_VAR_SIZE
            omega
          have hfl : buf.length = codec.SIZE.toNat / 8 := hflen hpos
          refine ⟨varintEncode proto.code ++ buf ++ bytes', ?_, ?_, ?_⟩
          · simp only [serializeComps, htb, if_neg hnlp, List.append_nil]
            rw [hser']
          · have := varintEncode_length_pos proto.code
            simp only [List.length_append, List.length_cons]
            omega
          · intro fuel prevP prevC hf
            cases fuel with
            | zero => omega
            | succ f =>
              have hne : varintEncode proto.code ++ buf ++ bytes' ≠ [] := by
                intro hnil
                rw [List.append_eq_nil, List.append_eq_nil] at hnil
                exact varintEncode_ne_nil _ hnil.1.1
              cases hb : varintEncode proto.code ++ buf ++ bytes' with
              | nil => exact absurd hb hne
              | cons b bs =>
                simp only [bytes_to_string_go]
                rw [← hb, List.append_assoc]
                simp only [varintDecode_encode, hcode, hpcdc, hcbn]
                rw [if_pos hpos, ← hfl, List.take_left, List.drop_left]
                simp only [hts]
                rw [if_neg hpath]
                rw [hdec' f (some proto) (some proto.code)
                  (by simp at hf ⊢; omega)]
                simp only [Except.map]
                rw [piecesOf_cons]
                rfl
        · have hneg : codec.SIZE < 0 := by
            omega
          have hlp : codec.SIZE = LENGTH_PREFIXED_VAR_SIZE :=
            codec_by_name_SIZE_neg hcbn hneg
          refine ⟨varintEncode proto.code ++ varintEncode buf.length ++ buf
            ++ bytes', ?_, ?_, ?_⟩
          · simp only [serializeComps, htb, if_pos hlp]
            rw [hser']
          · have := varintEncode_length_pos proto.code
            simp only [List.length_append, List.length_cons]
            omega
          · intro fuel prevP prevC hf
            cases fuel with
            | zero => omega
            | succ f =>
              have hne : varintEncode proto.code ++ varintEncode buf.length ++
                  buf ++ bytes' ≠ [] := by
                intro hnil
                rw [List.append_eq_nil, List.append_eq_nil,
                  List.append_eq_nil] at hnil
                exact varintEncode_ne_nil _ hnil.1.1.1
              cases hb : varintEncode proto.code ++ varintEncode buf.length ++
                  buf ++ bytes' with
              | nil => exact absurd hb hne
              | cons b bs =>
                simp only [bytes_to_string_go]
                rw [← hb, List.append_assoc, List.append_assoc]
                simp only [varintDecode_encode, hcode, hpcdc, hcbn]
                rw [if_neg (by omega : ¬ (0 : Int) < codec.SIZE)]
                simp only [varintDecode_encode]
                rw [List.take_left, List.drop_left]
                simp only [hts]
                rw [if_neg hpath]
                rw [hdec' f (some proto) (some proto.code)
                  (by simp at hf ⊢; omega)]
                simp only [Except.map]
                rw [piecesOf_cons]
                rfl

theorem filter_getLast?_of_post_none {α : Type} (p : α → Bool)
    (pre post : List α) (c : α) (hc : p c = true)
    (hpost : ∀ d ∈ post, p d = false) :
    ((pre ++ c :: post).filter p).getLast? = some c := by
  have hnil : post.filter p = [] := by
    rw [List.filter_eq_nil_iff]
    intro a ha
    simp [hpost a ha]
  rw [List.filter_append, List.filter_cons_of_pos hc, hnil]
  exact List.getLast?_concat _

theorem lastIdxWhere_eq_none {α : Type} (p : α → Bool) (l : List α)
    (h : ∀ x ∈ l, p x = false) : lastIdxWhere p l = none := by
  induction l with
  | nil => rfl
  | cons a rest ih =>
    unfold lastIdxWhere
    rw [ih (fun x hx => h x (List.mem_cons_of_mem a hx))]
    simp [h a (List.mem_cons_self a rest)]

theorem lastIdxWhere_append (α : Type) (p : α → Bool) (pre post : List α)
    (c : α) (hc : p c = true) (hpost : ∀ x ∈ post, p x = false) :
    lastIdxWhere p (pre ++ c :: post) = some pre.length := by
  induction pre with
  | nil =>
    simp only [List.nil_append]
    unfold lastIdxWhere
    rw [lastIdxWhere_eq_none p post hpost]
    simp [hc]
  | cons a pre' ih =>
    show lastIdxWhere p (a :: (pre' ++ c :: post)) = _
    unfold lastIdxWhere
    rw [ih]
    rfl

/-! ## The claims -/

/-- C1: the claim "for every syntactically valid multiaddr string `s`
with no redundant slashes, `bytes_to_string (string_to_bytes s) = s`"
fails on the code: `/tcp/080` parses successfully (no redundant slashes,
`int("080", 10)` accepts leading zeros) but reads back as `/tcp/80`. -/
theorem c1_roundtrip_counterexample :
    string_to_bytes "/tcp/080".data = .ok [6, 0, 80] ∧
    bytes_to_string [6, 0, 80] = .ok "/tcp/80".data ∧
    "/tcp/80".data ≠ "/tcp/080".data := by
  refine ⟨by decide, by decide, by decide⟩

/-- C1 amended: for every multiaddr string of the form `/t1/t2/.../tn`
(no redundant slashes) that parses successfully and whose parsed
components all carry canonical values (the codec's
`to_string ∘ to_bytes` is the identity on the value, fixed-size codecs
emit exactly their width, and no component uses the size-class-0 codec),
`bytes_to_string (string_to_bytes s) = s`. -/
theorem c1_roundtrip_amended (toks : List PyStr) (comps : List SComp)
    (hne : toks ≠ [])
    (htok : ∀ t ∈ toks, TokOk t)
    (hparse : string_iter (slashJoin toks) = .ok comps)
    (hcanon : ∀ c ∈ comps, CanonValue c) :
    ∃ bytes, string_to_bytes (slashJoin toks) = .ok bytes ∧
      bytes_to_string bytes = .ok (slashJoin toks) := by
  have hparse' : string_iter_go (toks.length + 1) toks = .ok comps := by
    rw [← string_iter_slashJoin toks hne htok]
    exact hparse
  obtain ⟨hinv, hpieces⟩ := string_iter_go_sound (toks.length + 1) toks comps
    (by omega) htok hparse'
  obtain ⟨bytes, hser, hblen, hdec⟩ := serializeComps_sound comps
    (fun c hc => ⟨hinv c hc, hcanon c hc⟩)
  refine ⟨bytes, ?_, ?_⟩
  · unfold string_to_bytes
    rw [hparse]
    exact hser
  · unfold bytes_to_string
    rw [hdec (bytes.length + 1) none none (by omega)]
    rw [hpieces hcanon]
    rw [← slashJoin_eq_tokensFlat toks hne]

/-- Witness for the amended C1 at `/dns4/a.com/tcp/1` (all value tokens
canonical). -/
theorem c1_roundtrip_amended_witness :
    ∃ bytes, string_to_bytes "/dns4/a.com/tcp/1".data = .ok bytes ∧
      bytes_to_string bytes = .ok "/dns4/a.com/tcp/1".data := by
  have h := c1_roundtrip_amended
    ["dns4".data, "a.com".data, "tcp".data, "1".data]
    [⟨⟨P_DNS4, "dns4".data, some "domain".data⟩, some domainCodec,
        some "a.com".data⟩,
     ⟨⟨P_TCP, "tcp".data, some "uint16be".data⟩, some uint16beCodec,
        some "1".data⟩]
    (by simp) (by intro t ht; fin_cases ht <;> exact ⟨by decide, by decide⟩)
    rfl ?canon
  · exact h
  case canon =>
    intro c hc
    rw [List.mem_cons, List.mem_singleton] at hc
    rcases hc with rfl | rfl
    · exact ⟨utf8Encode "a.com".data, rfl, by decide, by decide, by decide⟩
    · exact ⟨[0, 1], by decide, by decide, by decide, by decide⟩

/-- C2: `a.encapsulate(b).decapsulate(b) == a` for all byte buffers, and
when `b`'s canonical bytes do not occur as a contiguous substring of
`a`'s, `a.decapsulate(b)` returns `a` unchanged. -/
theorem c2_encapsulate_decapsulate (a b : Bytes) :
    decapsulate (encapsulate a b) b = a ∧
    (¬ b <:+: a → decapsulate a b = a) :=
  ⟨decapsulate_encapsulate a b, fun h => decapsulate_not_contained h⟩

/-- Witness for C2 at `a = /ip4/1.2.3.4`, `b = /tcp/80` (canonical
bytes `[4,1,2,3,4]` and `[6,0,80]`). -/
theorem c2_encapsulate_decapsulate_witness :
    decapsulate (encapsulate [4, 1, 2, 3, 4] [6, 0, 80]) [6, 0, 80] = [4, 1, 2, 3, 4] ∧
    decapsulate [4, 1, 2, 3, 4] [6, 0, 80] = [4, 1, 2, 3, 4] :=
  ⟨(c2_encapsulate_decapsulate [4, 1, 2, 3, 4] [6, 0, 80]).1,
   (c2_encapsulate_decapsulate [4, 1, 2, 3, 4] [6, 0, 80]).2 (by decide)⟩

/-- C5: the claim that both `""` and `"/"` construct the zero-component
address fails on the code: `string_iter` raises
`StringParseError("Empty string")` on `""` (contradicting the spec and
the repository's own test, which constructs `Multiaddr("")`), while
`"/"` indeed parses to the empty byte buffer. -/
theorem c5_empty_string_parse :
    string_to_bytes "".data = .error .emptyString ∧
    string_to_bytes "/".data = .ok [] := by
  refine ⟨by decide, by decide⟩

/-- C7: `/ip4/::1`, `/tcp/65536` and `/ip4/127.0.0.1/p2p` are each
rejected by string parsing with a `StringParseError` (invalid IPv4
literal, port out of range, missing required value). -/
theorem c7_invalid_inputs_rejected :
    string_to_bytes "/ip4/::1".data = .error (.invalidValue "ip4".data) ∧
    string_to_bytes "/tcp/65536".data = .error (.invalidValue "tcp".data) ∧
    string_to_bytes "/ip4/127.0.0.1/p2p".data = .error (.requiresAddress "p2p".data) := by
  refine ⟨by decide, by decide, by decide⟩

/-- C6: the claim fails on the code: for `/tcp/p2p-circuit` the token
`p2p-circuit` is rejected by `tcp`'s codec and *is* a valid registered
protocol name, yet parsing surfaces the original encode failure
(`Invalid value for protocol tcp`) instead of the claimed
"missing value" error, because the name check only runs for
alphanumeric tokens and `p2p-circuit` contains `-`. -/
theorem c6_counterexample :
    (protocol_with_name "p2p-circuit".data).isSome = true ∧
    uint16beToBytes ⟨P_TCP, "tcp".data, some "uint16be".data⟩ "p2p-circuit".data
      = none ∧
    string_to_bytes "/tcp/p2p-circuit".data = .error (.invalidValue "tcp".data) ∧
    StrErr.invalidValue "tcp".data ≠ StrErr.missingValue "tcp".data := by
  refine ⟨by decide, by decide, by decide, by decide⟩

/-- C6 amended: when a value-requiring protocol is followed by a token
its codec rejects, the parse error is the "missing value" error only if
the token is *alphanumeric* and a registered protocol name; a
non-alphanumeric token — even a registered protocol name — and an
alphanumeric token that is not a protocol name both surface the original
codec failure. -/
theorem c6_amended (fuel : Nat) (element next : PyStr) (sp rest : List PyStr)
    (proto : Protocol) (codecName : PyStr) (codec : CodecBase)
    (hel : element.isEmpty = false)
    (hproto : protocol_with_name element = some proto)
    (hcn : proto.codec = some codecName)
    (hcodec : codec_by_name (some codecName) = some codec)
    (hsize : codec.SIZE ≠ 0)
    (hunix : proto.name ≠ "unix".data)
    (hdrop : sp.dropWhile List.isEmpty = next :: rest)
    (hrej : codec.to_bytes proto next = none) :
    (pyIsAlnum next = true → (protocol_with_name next).isSome = true →
      string_iter_go (fuel + 1) (element :: sp) = .error (.missingValue proto.name)) ∧
    (pyIsAlnum next = false ∨ protocol_with_name next = none →
      string_iter_go (fuel + 1) (element :: sp) = .error (.invalidValue proto.name)) := by
  have hstep : string_iter_go (fuel + 1) (element :: sp) =
      (if pyIsAlnum next then
        match protocol_with_name next with
        | some _ => .error (.missingValue proto.name)
        | none => .error (.invalidValue proto.name)
      else .error (.invalidValue proto.name)) := by
    simp only [string_iter_go, hel, Bool.false_eq_true, if_false, hproto, hcn,
      hcodec, if_neg hsize, if_neg hunix, hdrop, hrej]
  constructor
  · intro halnum hsome
    rw [hstep, if_pos halnum]
    cases hpn : protocol_with_name next with
    | none => rw [hpn] at hsome; simp at hsome
    | some p => rfl
  · intro hcase
    rw [hstep]
    cases hcase with
    | inl h => rw [h]; rfl
    | inr h =>
      by_cases halnum : pyIsAlnum next
      · rw [if_pos halnum, h]
      · rw [if_neg halnum]

/-- Witness for the amended C6 at `/tcp/udp` (alphanumeric protocol-name
token after the value-requiring `tcp`). -/
theorem c6_amended_witness :
    string_iter_go 1 ["tcp".data, "udp".data] = .error (.missingValue "tcp".data) :=
  (c6_amended 0 "tcp".data "udp".data ["udp".data] []
    ⟨P_TCP, "tcp".data, some "uint16be".data⟩ "uint16be".data uint16beCodec
    (by decide) (by decide) rfl rfl (by decide) (by decide) rfl (by decide)).1
    (by decide) (by decide)

/-- C3: `decapsulate_code` (modelled from the spec, the method is absent
from `src/`) removes the last component carrying the given code together
with everything from its start to the end of the buffer; an absent code
returns the address unchanged; the empty address is a no-op; and the
two concrete `/dns4/a.com/tcp/1/dns4/b.com/tcp/2` examples hold. -/
theorem c3_decapsulate_code_rightmost :
    (∀ (code : Nat) (buf : Bytes) (pre post : List BComp) (c : BComp),
      bytes_iter buf = .ok (pre ++ c :: post) → c.proto.code = code →
      (∀ d ∈ post, d.proto.code ≠ code) →
      decapsulate_code buf code = .ok (buf.take c.offset)) ∧
    (∀ (code : Nat) (buf : Bytes) (comps : List BComp),
      bytes_iter buf = .ok comps → (∀ d ∈ comps, d.proto.code ≠ code) →
      decapsulate_code buf code = .ok buf) ∧
    (∀ code : Nat, decapsulate_code [] code = .ok []) ∧
    ((string_to_bytes "/dns4/a.com/tcp/1/dns4/b.com/tcp/2".data).map
        (fun b => (decapsulate_code b P_DNS4).map bytes_to_string) =
      .ok (.ok (.ok "/dns4/a.com/tcp/1".data))) ∧
    ((string_to_bytes "/dns4/a.com/tcp/1/dns4/b.com/tcp/2".data).map
        (fun b => (decapsulate_code b P_TCP).map bytes_to_string) =
      .ok (.ok (.ok "/dns4/a.com/tcp/1/dns4/b.com".data))) := by
  refine ⟨?_, ?_, ?_, by decide, by decide⟩
  · intro code buf pre post c hiter hc hpost
    unfold decapsulate_code
    rw [hiter]
    simp only [Except.map]
    rw [filter_getLast?_of_post_none (fun d => d.proto.code = code) pre post c
      (by simp [hc]) (fun d hd => by simp [hpost d hd])]
  · intro code buf comps hiter hnone
    unfold decapsulate_code
    rw [hiter]
    have hnil : comps.filter (fun d => d.proto.code = code) = [] := by
      rw [List.filter_eq_nil_iff]
      intro d hd
      simp [hnone d hd]
    simp only [Except.map]
    rw [hnil]
    rfl
  · intro code
    rfl

/-- Witness for C3: the rightmost-removal part at
`/ip4/1.2.3.4/tcp/80` (`decapsulate_code tcp` keeps `/ip4/1.2.3.4`),
and the absent-code part at code 9999. -/
theorem c3_decapsulate_code_rightmost_witness :
    decapsulate_code [4, 1, 2, 3, 4, 6, 0, 80] P_TCP = .ok [4, 1, 2, 3, 4] ∧
    decapsulate_code [4, 1, 2, 3, 4] 9999 = .ok [4, 1, 2, 3, 4] := by
  constructor
  · exact c3_decapsulate_code_rightmost.1 P_TCP [4, 1, 2, 3, 4, 6, 0, 80]
      [⟨0, ⟨P_IP4, "ip4".data, some "ip4".data⟩, ip4Codec, [1, 2, 3, 4]⟩] []
      ⟨5, ⟨P_TCP, "tcp".data, some "uint16be".data⟩, uint16beCodec, [0, 80]⟩
      rfl rfl (fun d hd => absurd hd (List.not_mem_nil d))
  · exact c3_decapsulate_code_rightmost.2.1 9999 [4, 1, 2, 3, 4]
      [⟨0, ⟨P_IP4, "ip4".data, some "ip4".data⟩, ip4Codec, [1, 2, 3, 4]⟩]
      rfl (by intro d hd; rw [List.mem_singleton] at hd; subst hd; decide)

/-- C4: `get_peer_id` (modelled from the spec, the method is absent from
`src/`): with at least one `p2p-circuit` marker the result is the value
of the first `p2p` component strictly after the last marker (never one
before it); with no marker it is the value of the first `p2p` component,
`none` when no `p2p` component exists. -/
theorem c4_get_peer_id_circuit :
    (∀ (buf : Bytes) (its pre post : List (Protocol × Option PyStr))
        (c : Protocol × Option PyStr),
      items buf = .ok its → its = pre ++ c :: post →
      c.1.name = "p2p-circuit".data →
      (∀ it ∈ post, it.1.name ≠ "p2p-circuit".data) →
      get_peer_id buf =
        .ok ((post.find? (fun it => it.1.name = "p2p".data)).bind (fun it => it.2))) ∧
    (∀ (buf : Bytes) (its : List (Protocol × Option PyStr)),
      items buf = .ok its →
      (∀ it ∈ its, it.1.name ≠ "p2p-circuit".data) →
      get_peer_id buf =
        .ok ((its.find? (fun it => it.1.name = "p2p".data)).bind (fun it => it.2))) := by
  constructor
  · intro buf its pre post c hits hdecomp hc hpost
    unfold get_peer_id
    rw [hits]
    simp only [Except.map]
    subst hdecomp
    rw [lastIdxWhere_append _ _ pre post c (by simp [hc])
      (fun x hx => by simp [hpost x hx])]
    have hdrop : (pre ++ c :: post).drop (pre.length + 1) = post := by
      rw [show pre ++ c :: post = (pre ++ [c]) ++ post by simp]
      rw [show pre.length + 1 = (pre ++ [c]).length by simp]
      exact List.drop_left _ _
    have hred : (match some pre.length with
        | some i => List.drop (i + 1) (pre ++ c :: post)
        | none => pre ++ c :: post) = post := hdrop
    rw [hred]
  · intro buf its hits hnone
    unfold get_peer_id
    rw [hits]
    simp only [Except.map]
    rw [lastIdxWhere_eq_none _ its (fun x hx => by simp [hnone x hx])]

/-- Witness for C4 at `/p2p-circuit/p2p/z` (canonical bytes
`[162,2,165,3,2,1,57]`; the decoded `p2p` value is the codec's
re-encoding `6Q`) and, for the no-marker part, `/ip4/1.2.3.4`. -/
theorem c4_get_peer_id_circuit_witness :
    get_peer_id [162, 2, 165, 3, 2, 1, 57] = .ok (some "6Q".data) ∧
    get_peer_id [4, 1, 2, 3, 4] = .ok none := by
  constructor
  · exact c4_get_peer_id_circuit.1 [162, 2, 165, 3, 2, 1, 57]
      [(⟨P_P2P_CIRCUIT, "p2p-circuit".data, none⟩, none),
       (⟨P_P2P, "p2p".data, some "cid".data⟩, some "6Q".data)]
      [] [(⟨P_P2P, "p2p".data, some "cid".data⟩, some "6Q".data)]
      (⟨P_P2P_CIRCUIT, "p2p-circuit".data, none⟩, none)
      (by decide) rfl (by decide)
      (by intro it hit; rw [List.mem_singleton] at hit; subst hit; decide)
  · exact c4_get_peer_id_circuit.2 [4, 1, 2, 3, 4]
      [(⟨P_IP4, "ip4".data, some "ip4".data⟩, some "1.2.3.4".data)]
      (by decide)
      (by intro it hit; rw [List.mem_singleton] at hit; subst hit; decide)

/-- C8: `DNSResolver.resolve` fails with `ResolutionError("empty
multiaddr")` on a zero-component address, passes any address whose first
protocol is not `dns`/`dns4`/`dns6`/`dnsaddr` through unchanged as a
one-element list, and in particular resolves `/ip4/127.0.0.1/tcp/1234`
to `[original]` for every oracle and option set. -/
theorem c8_dns_resolver_passthrough :
    (∀ (oracle : DnsOracle) (buf : Bytes) (opts : Option ResolveOptions),
      protocolsOf buf = .ok [] →
      DNSResolver_resolve oracle buf opts =
        .error (.resolutionError "empty multiaddr".data)) ∧
    (∀ (oracle : DnsOracle) (buf : Bytes) (opts : Option ResolveOptions)
        (first : Protocol) (rest : List Protocol),
      protocolsOf buf = .ok (first :: rest) →
      first.code ≠ P_DNS → first.code ≠ P_DNS4 → first.code ≠ P_DNS6 →
      first.code ≠ P_DNSADDR →
      DNSResolver_resolve oracle buf opts = .ok [buf]) ∧
    (∀ (oracle : DnsOracle) (opts : Option ResolveOptions) (b : Bytes),
      string_to_bytes "/ip4/127.0.0.1/tcp/1234".data = .ok b →
      DNSResolver_resolve oracle b opts = .ok [b]) := by
  have h1 : ∀ (oracle : DnsOracle) (buf : Bytes) (opts : Option ResolveOptions),
      protocolsOf buf = .ok [] →
      DNSResolver_resolve oracle buf opts =
        .error (.resolutionError "empty multiaddr".data) := by
    intro oracle buf opts h
    unfold DNSResolver_resolve
    rw [h]
  have h2 : ∀ (oracle : DnsOracle) (buf : Bytes) (opts : Option ResolveOptions)
      (first : Protocol) (rest : List Protocol),
      protocolsOf buf = .ok (first :: rest) →
      first.code ≠ P_DNS → first.code ≠ P_DNS4 → first.code ≠ P_DNS6 →
      first.code ≠ P_DNSADDR →
      DNSResolver_resolve oracle buf opts = .ok [buf] := by
    intro oracle buf opts first rest h hd hd4 hd6 hda
    unfold DNSResolver_resolve
    rw [h]
    simp only [hd, hd4, hd6, hda, or_self, if_false]
  refine ⟨h1, h2, ?_⟩
  intro oracle opts b hb
  have hconc : string_to_bytes "/ip4/127.0.0.1/tcp/1234".data =
      .ok [4, 127, 0, 0, 1, 6, 4, 210] := by decide
  rw [hconc] at hb
  cases hb
  exact h2 oracle _ opts ⟨P_IP4, "ip4".data, some "ip4".data⟩
    [⟨P_TCP, "tcp".data, some "uint16be".data⟩]
    (by decide) (by decide) (by decide) (by decide) (by decide)

/-- Witness for C8 at a trivial oracle: the pass-through part on
`/ip4/127.0.0.1/tcp/1234` and the empty-address part. -/
theorem c8_dns_resolver_passthrough_witness :
    DNSResolver_resolve ⟨fun _ _ => .noAnswer⟩ [4, 127, 0, 0, 1, 6, 4, 210] none =
      .ok [[4, 127, 0, 0, 1, 6, 4, 210]] ∧
    DNSResolver_resolve ⟨fun _ _ => .noAnswer⟩ [] none =
      .error (.resolutionError "empty multiaddr".data) :=
  ⟨c8_dns_resolver_passthrough.2.2 ⟨fun _ _ => .noAnswer⟩ none _ (by decide),
   c8_dns_resolver_passthrough.1 ⟨fun _ _ => .noAnswer⟩ [] none (by decide)⟩

/-- C9: resolving a `dnsaddr` address with `max_recursive_depth = 0`
yields `RecursionLimitError`, propagated as-is by `resolve`'s exception
handling (never wrapped into `ResolutionError`), for every oracle. -/
theorem c9_recursion_limit_unwrapped (oracle : DnsOracle) (buf : Bytes)
    (first : Protocol) (rest : List Protocol) (hostname : PyStr)
    (hproto : protocolsOf buf = .ok (first :: rest))
    (hcode : first.code = P_DNSADDR)
    (hval : value_for_protocol buf first.code = .ok (some (some hostname)))
    (hne : hostname.isEmpty = false) :
    DNSResolver_resolve oracle buf (some ⟨some 0⟩) =
      .error (.recursionLimitError
        ("Maximum recursive depth exceeded for ".data ++ clean_quotes hostname)) := by
  simp only [DNSResolver_resolve, hproto]
  rw [if_pos (Or.inr (Or.inr (Or.inr hcode)))]
  simp only [hval, hne, Bool.false_eq_true, if_false]
  rw [if_pos hcode]
  simp only [resolve_dnsaddr, Option.getD_some]
  rw [if_pos (by omega : (0 : Int) ≤ 0)]

/-- C10: over a buffer that is a valid concatenation of complete
components, `split(maxsplit)` (a) always returns a list whose buffers
concatenate back to exactly the original buffer, (b) with `maxsplit = -1`
returns one single-component buffer per component, and (c) with
`0 ≤ maxsplit < n` returns `maxsplit` single-component buffers followed
by one element bundling the remainder of the original buffer
(`maxsplit + 1` elements in total). -/
theorem c10_split_concat (comps : List (Protocol × Bytes))
    (hok : ∀ c ∈ comps, CompOk c) :
    (∀ ms : Int, ∃ res, split (encodeComps comps) ms = .ok res ∧
      res.flatten = encodeComps comps) ∧
    split (encodeComps comps) (-1) = .ok (comps.map encodeComp) ∧
    (∀ ms : Int, 0 ≤ ms → ms < (comps.length : Int) →
      split (encodeComps comps) ms =
        .ok ((comps.take ms.toNat).map encodeComp ++
          [(encodeComps comps).drop (encodeComps (comps.take ms.toNat)).length]) ∧
      ((comps.take ms.toNat).map encodeComp ++
        [(encodeComps comps).drop (encodeComps (comps.take ms.toNat)).length]).length
        = ms.toNat + 1) := by
  have hbase : ∀ ms : Int, split (encodeComps comps) ms =
      .ok (splitExpected ms 0 0 (encodeComps comps) comps) := by
    intro ms
    unfold split
    exact split_go_encode comps ((encodeComps comps).length + 1) 0 0 _ ms hok
      (by have := length_le_encodeComps_length comps; omega)
      (by rw [List.drop_zero])
  refine ⟨?_, ?_, ?_⟩
  · intro ms
    refine ⟨splitExpected ms 0 0 (encodeComps comps) comps, hbase ms, ?_⟩
    have := splitExpected_flatten comps 0 0 (encodeComps comps) ms
      (by rw [List.drop_zero])
    rw [this, List.drop_zero]
  · rw [hbase (-1), splitExpected_of_lt comps 0 0 _ (-1) (by omega)]
  · intro ms h0 hlt
    have hk : ms = ((0 : Nat) : Int) + ms.toNat := by omega
    have hklen : ms.toNat < comps.length := by omega
    constructor
    · rw [hbase ms, splitExpected_mid comps ms.toNat 0 0 _ ms hk hklen]
      rw [Nat.zero_add]
    · have htake : (comps.take ms.toNat).length = ms.toNat :=
        List.length_take_of_le (by omega)
      simp only [List.length_append, List.length_map, htake, List.length_singleton]

/-- Witness for C10 at the two-component buffer
`/ip4/1.2.3.4/tcp/80 = [4,1,2,3,4,6,0,80]`: full split into the two
single-component buffers, and `maxsplit = 1` bundling the remainder. -/
theorem c10_split_concat_witness :
    split [4, 1, 2, 3, 4, 6, 0, 80] (-1) = .ok [[4, 1, 2, 3, 4], [6, 0, 80]] ∧
    split [4, 1, 2, 3, 4, 6, 0, 80] 1 = .ok [[4, 1, 2, 3, 4], [6, 0, 80]] := by
  have hok : ∀ c ∈ [((⟨P_IP4, "ip4".data, some "ip4".data⟩ : Protocol),
        ([1, 2, 3, 4] : Bytes)),
      ((⟨P_TCP, "tcp".data, some "uint16be".data⟩ : Protocol), ([0, 80] : Bytes))],
      CompOk c := by
    intro c hc
    rw [List.mem_cons, List.mem_singleton] at hc
    cases hc with
    | inl h => exact h ▸ ⟨by decide, ip4Codec, rfl, fun _ => by decide⟩
    | inr h => exact h ▸ ⟨by decide, uint16beCodec, rfl, fun _ => by decide⟩
  have h := c10_split_concat _ hok
  exact ⟨h.2.1, (h.2.2 1 (by omega) (by decide)).1⟩

/-- Witness for C9 at `/dnsaddr/example.com` and the trivial oracle. -/
theorem c9_recursion_limit_unwrapped_witness :
    DNSResolver_resolve ⟨fun _ _ => .noAnswer⟩
      [56, 11, 101, 120, 97, 109, 112, 108, 101, 46, 99, 111, 109] (some ⟨some 0⟩) =
      .error (.recursionLimitError
        ("Maximum recursive depth exceeded for ".data ++
          clean_quotes "example.com".data)) :=
  c9_recursion_limit_unwrapped ⟨fun _ _ => .noAnswer⟩ _
    ⟨P_DNSADDR, "dnsaddr".data, some "domain".data⟩ [] "example.com".data
    (by decide) (by decide) (by decide) (by decide)

end Multiaddr
